import Mathlib

/-
Shallow embedding of the resume-analyzer core (`src/core` of the repository)
and verification of its specification claims.

Modelling conventions:
* Python strings are modelled as `List Char`.  All text reaching the core
  operations is ASCII (the normalizer drops non-ASCII bytes up front), so the
  ASCII fragments of `str.lower`, `\w`, `\s` and word boundaries are modelled.
* Python floats are modelled by exact rationals where the computations the
  claims touch stay exact (counts, the 0.98 / 0.9 / 1.5 constants, divisions),
  and by real numbers where the source uses the logarithm (TF-IDF weights).
* Python dicts are modelled as association lists with insert-or-overwrite
  semantics preserving first-insertion order, like CPython dicts.
* Fallible code returns `Except` / `Option`; a Python `raise` site is an
  `Except.error`.  The undefined name `fuzz` in `skills.py` (only
  `difflib.SequenceMatcher` is imported, and never used) is modelled as the
  error `PyErr.nameErrorFuzz` produced at the point `fuzz.ratio` would be
  evaluated.
-/

set_option maxRecDepth 4000

namespace ResumeAnalyzer

/-! ### Character helpers (ASCII fragment of Python semantics) -/

/-- ASCII lower-casing of one character, modelling `str.lower` on ASCII text. -/
def lowerChar (c : Char) : Char :=
  if 'A' ≤ c ∧ c ≤ 'Z' then Char.ofNat (c.toNat + 32) else c

/-- Lower-case a string, modelling `str.lower` on ASCII text. -/
def lowerStr (l : List Char) : List Char := l.map lowerChar

/-- Membership of the regex class `\w` (ASCII fragment): letters, digits, `_`. -/
def isWordChar (c : Char) : Bool := c.isAlphanum || c == '_'

/-- Membership of the regex class `\s` / Python `str.strip` whitespace (ASCII). -/
def pyIsSpace (c : Char) : Bool :=
  c == ' ' || c == '\t' || c == '\n' || c == '\x0d' || c == '\x0b' || c == '\x0c'

/-- Does `pat` occur in `text` starting at index `i`? -/
def occursAt (pat text : List Char) (i : ℕ) : Bool :=
  (text.drop i).take pat.length == pat

/-- Plain substring containment, modelling the Python `in` operator on `str`
(the empty string is contained in every string). -/
def containsSub (pat text : List Char) : Bool :=
  (List.range (text.length + 1)).any (fun i => occursAt pat text i)

/-- Is the character at index `i` a word character (out-of-range counts as
non-word, matching how `\b` treats the ends of the text)? -/
def isWordAt (text : List Char) (i : ℕ) : Bool :=
  match text.get? i with
  | some c => isWordChar c
  | none => false

/-- The regex word boundary `\b` holds at position `i` (between index `i - 1`
and index `i`) iff exactly one of the two neighbouring characters is a word
character. -/
def boundaryAt (text : List Char) (i : ℕ) : Bool :=
  (if i = 0 then false else isWordAt text (i - 1)) != isWordAt text i

/-- Search for `pat` bracketed by word boundaries, modelling
`re.search(rf"\b{re.escape(pat)}\b", text)` returning whether a match exists. -/
def boundaryFind (pat text : List Char) : Bool :=
  (List.range (text.length + 1)).any
    (fun i => occursAt pat text i && boundaryAt text i && boundaryAt text (i + pat.length))

/-- Index of the first occurrence of `pat` in `text`, modelling `str.find`
(which returns -1, modelled as `none`, when absent; the empty pattern is found
at index 0). -/
def findSubIdx (pat text : List Char) : Option ℕ :=
  (List.range (text.length + 1)).find? (fun i => occursAt pat text i)

/-- Strip leading and trailing whitespace, modelling `str.strip()` on ASCII. -/
def pyStrip (l : List Char) : List Char :=
  ((l.dropWhile pyIsSpace).reverse.dropWhile pyIsSpace).reverse

/-- Does `l` start with `pat`? -/
def startsWith (pat l : List Char) : Bool := l.take pat.length == pat

/-! ### `config.py`: skill taxonomy -/

/-- Enumeration `SkillCategory` of `config.py`. -/
inductive SkillCategory where
  | languages | frameworks | ml | devops | cloud | databases | fundamentals
deriving DecidableEq

/-- Enumeration `Priority` of `config.py`. -/
inductive Priority where
  | critical | high | medium | low
deriving DecidableEq

/-- Dataclass `Skill` of `config.py`. -/
structure Skill where
  name : List Char
  category : SkillCategory
  weight : ℚ
  variants : List (List Char)
  strict_match : Bool
deriving DecidableEq

/-- Builds a `Skill`, applying the `__post_init__` normalisation
`[v.lower().strip() for v in self.variants]` to the variant list. -/
def mkSkill (n : List Char) (c : SkillCategory) (w : ℚ) (vs : List (List Char))
    (sm : Bool) : Skill :=
  ⟨n, c, w, vs.map (fun v => pyStrip (lowerStr v)), sm⟩

/-- The lower-cased canonical key of a skill, `skill.name.lower()`. -/
def skillKey (s : Skill) : List Char := lowerStr s.name

/-- Insert-or-overwrite into an association list: the position of an existing
key is kept and its value replaced, a new key goes to the back.  This is the
update behaviour of a CPython dict. -/
def dinsert {α : Type} (k : List Char) (s : α) :
    List (List Char × α) → List (List Char × α)
  | [] => [(k, s)]
  | (k', s') :: rest => if k' = k then (k, s) :: rest else (k', s') :: dinsert k s rest

/-- Lookup in an association list, modelling `dict.get`. -/
def dlookup {α : Type} (k : List Char) : List (List Char × α) → Option α
  | [] => none
  | (k', s') :: rest => if k' = k then some s' else dlookup k rest

/-- The mutable state of `SkillTaxonomy`: the `_skills` dict keyed by
lower-cased canonical name and the `_variant_index` dict keyed by variant. -/
structure TaxonomyState where
  skills : List (List Char × Skill)
  variant_index : List (List Char × Skill)
deriving DecidableEq

/-- `SkillTaxonomy._register`: stores the skill under its lower-cased name and
every variant under itself.  There is no conflict check: an existing entry for
the same name or variant is silently overwritten. -/
def register (st : TaxonomyState) (s : Skill) : TaxonomyState :=
  { skills := dinsert (skillKey s) s st.skills,
    variant_index := s.variants.foldl (fun vi v => dinsert v s vi) st.variant_index }

/-- Entries of the taxonomy data that the verified claims reference by name. -/
def pythonSkill : Skill :=
  mkSkill ("Python".data) .languages (12/10) [("python".data), ("python3".data), ("py".data)] false

def javaSkill : Skill :=
  mkSkill ("Java".data) .languages (12/10) [("java".data), ("java8".data), ("java11".data)] false

def javascriptSkill : Skill :=
  mkSkill ("JavaScript".data) .languages (12/10) [("javascript".data), ("js".data), ("es6".data)] false

def cSkill : Skill := mkSkill ("C".data) .languages 1 [("c programming".data)] true

def goSkill : Skill := mkSkill ("Go".data) .languages 1 [("golang".data)] true

def dockerSkill : Skill := mkSkill ("Docker".data) .devops 1 [("docker".data)] false

def algorithmsSkill : Skill :=
  mkSkill ("Algorithms".data) .fundamentals (13/10) [("algorithms".data), ("algo".data), ("dsa".data)] false

def dataStructuresSkill : Skill :=
  mkSkill ("Data Structures".data) .fundamentals (13/10) [("data structures".data), ("dsa".data)] false

/-- The literal `skills_data` list of `SkillTaxonomy._load_skills`. -/
def skills_data : List Skill := [
  pythonSkill,
  javaSkill,
  javascriptSkill,
  mkSkill ("TypeScript".data) .languages (11/10) [("typescript".data), ("ts".data)] false,
  mkSkill ("C++".data) .languages (11/10) [("c++".data), ("cpp".data), ("cplusplus".data)] false,
  cSkill,
  mkSkill ("C#".data) .languages (11/10) [("c#".data), ("csharp".data)] false,
  goSkill,
  mkSkill ("React".data) .frameworks 1 [("react".data), ("reactjs".data)] false,
  mkSkill ("Angular".data) .frameworks (9/10) [("angular".data)] false,
  mkSkill ("Vue.js".data) .frameworks (9/10) [("vue".data), ("vuejs".data)] false,
  mkSkill ("Node.js".data) .frameworks 1 [("nodejs".data), ("node".data)] false,
  mkSkill ("Django".data) .frameworks 1 [("django".data)] false,
  mkSkill ("Flask".data) .frameworks (9/10) [("flask".data)] false,
  mkSkill ("Spring Boot".data) .frameworks 1 [("spring boot".data), ("spring".data)] false,
  mkSkill (".NET".data) .frameworks 1 [("dotnet".data), (".net".data)] false,
  mkSkill ("TensorFlow".data) .ml 1 [("tensorflow".data), ("tf".data)] false,
  mkSkill ("PyTorch".data) .ml 1 [("pytorch".data), ("torch".data)] false,
  mkSkill ("scikit-learn".data) .ml (9/10) [("sklearn".data)] false,
  dockerSkill,
  mkSkill ("Kubernetes".data) .devops (9/10) [("kubernetes".data), ("k8s".data)] false,
  mkSkill ("Git".data) .devops (8/10) [("git".data), ("github".data)] false,
  mkSkill ("AWS".data) .cloud 1 [("aws".data), ("amazon web services".data)] false,
  mkSkill ("Azure".data) .cloud (9/10) [("azure".data)] false,
  mkSkill ("GCP".data) .cloud (9/10) [("gcp".data), ("google cloud".data)] false,
  mkSkill ("SQL".data) .databases (11/10) [("sql".data)] false,
  mkSkill ("MySQL".data) .databases (9/10) [("mysql".data)] false,
  mkSkill ("PostgreSQL".data) .databases (9/10) [("postgresql".data), ("postgres".data)] false,
  mkSkill ("MongoDB".data) .databases (9/10) [("mongodb".data), ("mongo".data)] false,
  algorithmsSkill,
  dataStructuresSkill,
  mkSkill ("OOP".data) .fundamentals (11/10) [("oop".data), ("object oriented".data)] false,
  mkSkill ("System Design".data) .fundamentals (12/10) [("system design".data), ("architecture".data)] false]

/-- The taxonomy after `SkillTaxonomy.__init__` has registered every entry of
`skills_data`. -/
def taxonomy : TaxonomyState := skills_data.foldl register ⟨[], []⟩

/-- `SkillTaxonomy.get_all_skills` / iteration order: the values of the
`_skills` dict in insertion order. -/
def all_skills : List Skill := taxonomy.skills.map Prod.snd

/-- `SkillTaxonomy.get_by_variant`: lookup of the lower-cased variant in the
variant index. -/
def get_by_variant (v : List Char) : Option Skill :=
  dlookup (lowerStr v) taxonomy.variant_index

/-- The `CATEGORY_WEIGHTS` table of `config.py`.  `_compute_impact` reads it
via `.get(category, 1.0)`; the table is total so the default is unreachable. -/
def category_weight : SkillCategory → ℚ
  | .fundamentals => 13/10
  | .languages => 12/10
  | .frameworks => 1
  | .ml => 1
  | .devops => 9/10
  | .cloud => 1
  | .databases => 9/10

/-! ### `skills.py`: matching strategies and the extractor -/

/-- Dataclass `SkillMatch` of `skills.py`. -/
structure SkillMatch where
  skill : Skill
  match_type : String
  confidence : ℚ
  context : List Char
deriving DecidableEq

/-- The lower-cased canonical key of a match, `match.skill.name.lower()`. -/
def matchKey (m : SkillMatch) : List Char := lowerStr m.skill.name

/-- `ExactMatcher._extract_context`: a ±`window` character snippet around the
first case-insensitive occurrence of `term` in `text`, stripped, with ellipses
marking truncation (empty when the term is absent). -/
def extract_context (text term : List Char) (window : ℕ) : List Char :=
  match findSubIdx (lowerStr term) (lowerStr text) with
  | none => []
  | some idx =>
    let start := idx - window
    let stop := min text.length (idx + term.length + window)
    let ctx := pyStrip ((text.drop start).take (stop - start))
    let ctx := if start > 0 then ("...".data) ++ ctx else ctx
    if stop < text.length then ctx ++ ("...".data) else ctx

/-- One pass of a matching strategy over the taxonomy list, threading the
shared `seen` set of already-matched canonical keys: a skill whose key is in
`seen` is skipped; otherwise `test` decides whether (and with which
`SkillMatch`) the skill matches, and a hit records the key in `seen`.  Both
`ExactMatcher.find_matches` and `VariantMatcher.find_matches` are instances of
this loop shape. -/
def scanMatch (test : Skill → Option SkillMatch) :
    List Skill → List (List Char) → List SkillMatch × List (List Char)
  | [], seen => ([], seen)
  | s :: rest, seen =>
    if skillKey s ∈ seen then scanMatch test rest seen
    else
      match test s with
      | some m =>
        let r := scanMatch test rest (skillKey s :: seen)
        (m :: r.1, r.2)
      | none => scanMatch test rest seen

/-- The per-skill test of `ExactMatcher.find_matches`: a word-boundary regex
search for the canonical key when `strict_match` is set, otherwise a plain
substring check, both on the lower-cased text.  Confidence 1.0. -/
def exact_pred (s : Skill) (textL : List Char) : Bool :=
  if s.strict_match then boundaryFind (skillKey s) textL else containsSub (skillKey s) textL

def exactTest (text : List Char) (s : Skill) : Option SkillMatch :=
  if exact_pred s (lowerStr text) then
    some ⟨s, "exact", 1, extract_context text s.name 50⟩
  else none

/-- `ExactMatcher.find_matches`. -/
def exact_find_matches (text : List Char) (skills : List Skill)
    (seen : List (List Char)) : List SkillMatch × List (List Char) :=
  scanMatch (exactTest text) skills seen

/-- The first variant of `s` that occurs in the lower-cased text
(boundary-anchored when `strict_match`), modelling the inner
`for variant in skill.variants: ... break` loop of `VariantMatcher`. -/
def firstVariantHit (s : Skill) (textL : List Char) : Option (List Char) :=
  s.variants.find? (fun v =>
    if s.strict_match then boundaryFind v textL else containsSub v textL)

/-- Does some variant of `s` occur in the text (the trigger condition of a
variant match)? -/
def variant_pred (s : Skill) (textL : List Char) : Bool :=
  (firstVariantHit s textL).isSome

def variantTest (text : List Char) (s : Skill) : Option SkillMatch :=
  match firstVariantHit s (lowerStr text) with
  | some v => some ⟨s, "variant", 98/100, extract_context text v 50⟩
  | none => none

/-- `VariantMatcher.find_matches` (confidence 0.98). -/
def variant_find_matches (text : List Char) (skills : List Skill)
    (seen : List (List Char)) : List SkillMatch × List (List Char) :=
  scanMatch (variantTest text) skills seen

/-- Is `c` in the token character class `[\w\+\#\.]` of the fuzzy tokenizer? -/
def isTokenChar (c : Char) : Bool :=
  isWordChar c || c == '+' || c == '#' || c == '.'

/-- Length of the maximal leading run of token-class characters. -/
def tokenRunLen : List Char → ℕ
  | [] => 0
  | c :: rest => if isTokenChar c then tokenRunLen rest + 1 else 0

/-- Greedy-with-backtracking choice of the match length at position `i`: the
largest `l` with `minLen ≤ l ≤ bound` such that a word boundary holds at
`i + l` (regex `{minLen,}` followed by `\b`). -/
def bestTokenLen (text : List Char) (i minLen : ℕ) : ℕ → Option ℕ
  | 0 => none
  | l + 1 =>
    if minLen ≤ l + 1 && boundaryAt text (i + (l + 1)) then some (l + 1)
    else bestTokenLen text i minLen l

/-- Match attempt of `\b[\w\+\#\.]{minLen,}\b` at position `i`:
requires a boundary at `i`, then the backtracking-maximal token run. -/
def tokenMatchAt (text : List Char) (i minLen : ℕ) : Option ℕ :=
  if boundaryAt text i then bestTokenLen text i minLen (tokenRunLen (text.drop i))
  else none

/-- Scanning loop of `re.findall` for the token pattern: try each position
left to right, emit non-overlapping matches. -/
def findTokensGo (text : List Char) (minLen : ℕ) : ℕ → ℕ → List (List Char)
  | _, 0 => []
  | i, fuel + 1 =>
    if i ≥ text.length then []
    else
      match tokenMatchAt text i minLen with
      | some l => ((text.drop i).take l) :: findTokensGo text minLen (i + l) fuel
      | none => findTokensGo text minLen (i + 1) fuel

/-- `re.findall(r"\b[\w\+\#\.]{4,}\b", text.lower())`, the fuzzy tokenizer
(with `minLen` generalised; the fuzzy matcher uses 4). -/
def findTokens (textL : List Char) (minLen : ℕ) : List (List Char) :=
  findTokensGo textL minLen 0 (textL.length + 1)

/-- Errors a strategy can raise.  `nameErrorFuzz` is the `NameError` raised
when `fuzz.ratio` is evaluated: the name `fuzz` is never imported or defined
in `skills.py`. -/
inductive PyErr where
  | nameErrorFuzz
deriving DecidableEq

/-- Loop body of `FuzzyMatcher.find_matches`.  For each skill that is neither
seen nor `strict_match`, the code iterates over its candidate strings (the
canonical name followed by the variants — always a non-empty list) and over
the tokens, evaluating `fuzz.ratio(token, candidate)` on the first pair.
Since `fuzz` is an undefined name, that evaluation raises `NameError` as soon
as the token list is non-empty; with no tokens the inner loops are vacuous and
the skill contributes nothing. -/
def fuzzyGo (tokens : List (List Char)) :
    List Skill → List (List Char) → Except PyErr (List SkillMatch × List (List Char))
  | [], seen => .ok ([], seen)
  | s :: rest, seen =>
    if skillKey s ∈ seen || s.strict_match then fuzzyGo tokens rest seen
    else if tokens.isEmpty then fuzzyGo tokens rest seen
    else .error .nameErrorFuzz

/-- `FuzzyMatcher.find_matches` (threshold 88): tokenizes the lower-cased text
into word-like runs of length ≥ 4 and would compare each against every
candidate with `fuzz.ratio`, an undefined name. -/
def fuzzy_find_matches (text : List Char) (skills : List Skill)
    (seen : List (List Char)) : Except PyErr (List SkillMatch × List (List Char)) :=
  fuzzyGo (findTokens (lowerStr text) 4) skills seen

/-- Stable descending insertion by a rational key: the element goes after
every earlier element with a strictly greater key, reproducing the stable
`sorted(..., key=..., reverse=True)` of Python. -/
def insertDescBy (f : α → ℚ) (x : α) : List α → List α
  | [] => [x]
  | y :: ys => if f y > f x then y :: insertDescBy f x ys else x :: y :: ys

/-- Stable descending sort by a rational key, modelling
`sorted(l, key=f, reverse=True)`. -/
def sortDescBy (f : α → ℚ) (l : List α) : List α :=
  l.foldr (insertDescBy f) []

/-- `SkillExtractor.extract_skills` over the default taxonomy: empty text
returns `[]`; otherwise the exact, variant and fuzzy strategies run in
cascade over a shared `seen` set and the concatenated matches are sorted by
confidence descending.  An exception raised by a strategy propagates — the
method has no handler. -/
def extract_skills (text : List Char) : Except PyErr (List SkillMatch) :=
  if text.isEmpty then .ok []
  else
    let e := exact_find_matches text all_skills []
    let v := variant_find_matches text all_skills e.2
    match fuzzy_find_matches text all_skills v.2 with
    | .error err => .error err
    | .ok f => .ok (sortDescBy SkillMatch.confidence (e.1 ++ v.1 ++ f.1))

/-! ### `preprocessing.py`: the text normalizer -/

/-- Models `unicodedata.normalize("NFKD", text).encode("ascii", "ignore")
.decode("utf-8")`: ASCII characters are NFKD-invariant and survive; the
decomposition of a non-ASCII character contributes only characters that this
step itself re-examines, and its non-ASCII residue is dropped.  The model
keeps the ASCII characters and drops the rest; the output is always pure
ASCII, exactly as in the source. -/
def ascii_clean (l : List Char) : List Char := l.filter (fun c => c.toNat < 128)

def nonspace (c : Char) : Bool := !pyIsSpace c

/-- Generic scanning loop of `re.sub(pattern, " ", text)`: at each position
try the pattern; on a match emit a single space and continue after the match,
otherwise emit the character and move one position right. -/
def subScan (matchLen : List Char → Option ℕ) : ℕ → List Char → List Char
  | 0, l => l
  | _ + 1, [] => []
  | fuel + 1, c :: rest =>
    match matchLen (c :: rest) with
    | some n => ' ' :: subScan matchLen fuel ((c :: rest).drop n)
    | none => c :: subScan matchLen fuel rest

/-- Match attempt of `http\S+|www\.\S+` at the head of `l`: the literal
prefix followed by at least one non-space character, extending greedily over
the maximal non-space run. -/
def urlMatchLen (l : List Char) : Option ℕ :=
  if startsWith ("http".data) l && (l.drop 4).takeWhile nonspace ≠ [] then
    some (4 + ((l.drop 4).takeWhile nonspace).length)
  else if startsWith ("www.".data) l && (l.drop 4).takeWhile nonspace ≠ [] then
    some (4 + ((l.drop 4).takeWhile nonspace).length)
  else none

/-- `re.sub(r"http\S+|www\.\S+", " ", text)`. -/
def url_sub (l : List Char) : List Char := subScan urlMatchLen l.length l

/-- Match attempt of `\S+@\S+` at the head of `l`.  The regex engine matches
at a position iff the maximal non-space run starting there contains an `@`
preceded and followed by at least one further run character, and the greedy
`\S+` pieces then cover the whole run. -/
def emailMatchLen (l : List Char) : Option ℕ :=
  let run := l.takeWhile nonspace
  if ((run.drop 1).dropLast).contains '@' then some run.length else none

/-- `re.sub(r"\S+@\S+", " ", text)`. -/
def email_sub (l : List Char) : List Char := subScan emailMatchLen l.length l

/-- Membership of the separator class `[-.\s]` of the phone pattern. -/
def isPhoneSep (c : Char) : Bool := c == '-' || c == '.' || pyIsSpace c

/-- Consume exactly `n` digits, else fail. -/
def eatDigits : ℕ → List Char → Option (List Char)
  | 0, l => some l
  | _ + 1, [] => none
  | n + 1, c :: rest => if c.isDigit then eatDigits n rest else none

/-- Consume one character satisfying `p` when present (regex `X?`; for this
pattern the greedy choice never needs backtracking, since the optional
characters can never satisfy the digit test that follows them). -/
def eatOpt (p : Char → Bool) : List Char → List Char
  | [] => []
  | c :: rest => if p c then rest else c :: rest

/-- Match attempt of `\(?\d{3}\)?[-.\s]?\d{3}[-.\s]?\d{4}` at the head of
`l`, returning the matched length. -/
def phoneMatchLen (l : List Char) : Option ℕ :=
  match eatDigits 3 (eatOpt (fun c => c == '(') l) with
  | none => none
  | some l2 =>
    match eatDigits 3 (eatOpt isPhoneSep (eatOpt (fun c => c == ')') l2)) with
    | none => none
    | some l5 =>
      match eatDigits 4 (eatOpt isPhoneSep l5) with
      | none => none
      | some l7 => some (l.length - l7.length)

/-- `re.sub(r"\(?\d{3}\)?[-.\s]?\d{3}[-.\s]?\d{4}", " ", text)`. -/
def phone_sub (l : List Char) : List Char := subScan phoneMatchLen l.length l

/-- Is `c` kept by `re.sub(r"[^\w\s\+\#\.\-]", " ", text)`? -/
def isKeptChar (c : Char) : Bool :=
  isWordChar c || pyIsSpace c || c == '+' || c == '#' || c == '.' || c == '-'

/-- `re.sub(r"[^\w\s\+\#\.\-]", " ", text)`: every character outside the kept
class becomes a space. -/
def charclass_sub (l : List Char) : List Char :=
  l.map (fun c => if isKeptChar c then c else ' ')

/-- `re.sub(r"\s+", " ", text)`: each maximal whitespace run collapses to a
single space. -/
def squeeze : List Char → List Char
  | [] => []
  | [c] => if pyIsSpace c then [' '] else [c]
  | c :: d :: rest =>
    if pyIsSpace c && pyIsSpace d then squeeze (d :: rest)
    else (if pyIsSpace c then ' ' else c) :: squeeze (d :: rest)

/-- Steps `re.sub(r"\s+", " ", text).strip()`. -/
def collapseWs (l : List Char) : List Char := pyStrip (squeeze l)

/-- One step of the `TECHNICAL_PATTERNS` loop: replace each
word-boundary-anchored occurrence of the (already lower-case) literal by the
literal itself.  On the lower-cased text every `re.findall` match equals the
literal and `safe = match.lower()` equals it too, so the replacement text is
identical to the replaced text. -/
def subBoundaryGo (pat : List Char) : ℕ → Option Char → List Char → List Char
  | 0, _, l => l
  | _ + 1, _, [] => []
  | fuel + 1, prev, c :: rest =>
    let prevWord := match prev with | some p => isWordChar p | none => false
    let after := (c :: rest).drop pat.length
    let afterWord := match after with | a :: _ => isWordChar a | [] => false
    let lastWord := match pat.getLast? with | some p => isWordChar p | none => false
    if startsWith pat (c :: rest) && (prevWord != isWordChar c) && (lastWord != afterWord) then
      pat ++ subBoundaryGo pat fuel pat.getLast? after
    else c :: subBoundaryGo pat fuel (some c) rest

def subBoundary (pat l : List Char) : List Char :=
  if pat.isEmpty then l else subBoundaryGo pat l.length none l

/-- The literal technical patterns of `TextPreprocessor.TECHNICAL_PATTERNS`
(each source entry is the literal wrapped in `\b...\b`). -/
def technicalLits : List (List Char) :=
  [("c++".data), ("c#".data), (".net".data), ("ios".data),
   ("javascript".data), ("typescript".data), ("node.js".data)]

/-- The `TECHNICAL_PATTERNS` reinforcement loop of `TextPreprocessor.process`. -/
def technical_pass (l : List Char) : List Char :=
  technicalLits.foldl (fun t p => subBoundary p t) l

/-- `TextPreprocessor.process`: the full normalizer.  Empty input returns the
empty string; otherwise ASCII-clean, strip URLs/emails/phone shapes, lower,
replace disallowed characters by spaces, collapse whitespace, and run the
technical-pattern reinforcement. -/
def process (text : List Char) : List Char :=
  if text.isEmpty then []
  else
    technical_pass (collapseWs (charclass_sub (lowerStr
      (phone_sub (email_sub (url_sub (ascii_clean text)))))))

/-! ### `similarity.py`: the similarity engine

The engine delegates vectorization to `sklearn.TfidfVectorizer` with
`ngram_range=(1,3)`, `max_features=5000`, `min_df=1`, `max_df=0.95`,
`sublinear_tf=True`, `stop_words="english"` and the token pattern
`(?u)\b[\w\+\#\.]+\b`, fit on exactly the two documents.  The vectorizer
semantics are modelled here: analyzer (lowercase, token pattern, stop-word
removal, 1–3-grams joined by spaces), document-frequency pruning (with two
documents, `max_df = 0.95` removes every term whose document frequency is 2,
i.e. every term the two documents share; `min_df = 1` removes nothing), the
`max_features` cap, smoothed IDF `ln((1+n)/(1+df)) + 1` and sublinear TF
`1 + ln(tf)`.  The per-row L2 normalisation of the transformer cancels inside
the cosine, which is modelled directly as `dot / (norm * norm)`.  The two
`ValueError` sites inside `fit` (vocabulary empty before / after pruning) and
the two `raise` sites of `compute_similarity` are explicit error values.  The
real-valued weights use `Real.log`; the two explainability term lists of
`SimilarityResult` (top matching / unique terms) are rankings of those real
weights and are not modelled — no claim touches them. -/

/-- The `english` stop-word list of scikit-learn
(`sklearn.feature_extraction.text.ENGLISH_STOP_WORDS`). -/
def sk_stop_words : List (List Char) :=
  (["a", "about", "above", "across", "after", "afterwards", "again", "against",
    "all", "almost", "alone", "along", "already", "also", "although", "always",
    "am", "among", "amongst", "amoungst", "amount", "an", "and", "another",
    "any", "anyhow", "anyone", "anything", "anyway", "anywhere", "are",
    "around", "as", "at", "back", "be", "became", "because", "become",
    "becomes", "becoming", "been", "before", "beforehand", "behind", "being",
    "below", "beside", "besides", "between", "beyond", "bill", "both",
    "bottom", "but", "by", "call", "can", "cannot", "cant", "co", "con",
    "could", "couldnt", "cry", "de", "describe", "detail", "do", "done",
    "down", "due", "during", "each", "eg", "eight", "either", "eleven",
    "else", "elsewhere", "empty", "enough", "etc", "even", "ever", "every",
    "everyone", "everything", "everywhere", "except", "few", "fifteen",
    "fifty", "fill", "find", "fire", "first", "five", "for", "former",
    "formerly", "forty", "found", "four", "from", "front", "full", "further",
    "get", "give", "go", "had", "has", "hasnt", "have", "he", "hence", "her",
    "here", "hereafter", "hereby", "herein", "hereupon", "hers", "herself",
    "him", "himself", "his", "how", "however", "hundred", "i", "ie", "if",
    "in", "inc", "indeed", "interest", "into", "is", "it", "its", "itself",
    "keep", "last", "latter", "latterly", "least", "less", "ltd", "made",
    "many", "may", "me", "meanwhile", "might", "mill", "mine", "more",
    "moreover", "most", "mostly", "move", "much", "must", "my", "myself",
    "name", "namely", "neither", "never", "nevertheless", "next", "nine",
    "no", "nobody", "none", "noone", "nor", "not", "nothing", "now",
    "nowhere", "of", "off", "often", "on", "once", "one", "only", "onto",
    "or", "other", "others", "otherwise", "our", "ours", "ourselves", "out",
    "over", "own", "part", "per", "perhaps", "please", "put", "rather", "re",
    "same", "see", "seem", "seemed", "seeming", "seems", "serious", "several",
    "she", "should", "show", "side", "since", "sincere", "six", "sixty", "so",
    "some", "somehow", "someone", "something", "sometime", "sometimes",
    "somewhere", "still", "such", "system", "take", "ten", "than", "that",
    "the", "their", "them", "themselves", "then", "thence", "there",
    "thereafter", "thereby", "therefore", "therein", "thereupon", "these",
    "they", "thick", "thin", "third", "this", "those", "though", "three",
    "through", "throughout", "thru", "thus", "to", "together", "too", "top",
    "toward", "towards", "twelve", "twenty", "two", "un", "under", "until",
    "up", "upon", "us", "very", "via", "was", "we", "well", "were", "what",
    "whatever", "when", "whence", "whenever", "where", "whereafter",
    "whereas", "whereby", "wherein", "whereupon", "wherever", "whether",
    "which", "while", "whither", "who", "whoever", "whole", "whom", "whose",
    "why", "will", "with", "within", "without", "would", "yet", "you",
    "your", "yours", "yourself", "yourselves"] : List String).map String.data

/-- The analyzer tokens of one document: lowercase, then the token pattern
`(?u)\b[\w\+\#\.]+\b` (the same scanner as the fuzzy tokenizer, with minimum
length 1), then stop-word removal. -/
def sk_tokens (doc : List Char) : List (List Char) :=
  (findTokens (lowerStr doc) 1).filter (fun t => t ∉ sk_stop_words)

/-- Join token lists with single spaces, as sklearn builds n-gram strings. -/
def joinSpace (ts : List (List Char)) : List Char := List.intercalate [' '] ts

/-- All contiguous windows of length `n`, joined by spaces. -/
def windowsN (n : ℕ) : List (List Char) → List (List Char)
  | [] => []
  | t :: rest =>
    if n ≤ (t :: rest).length then joinSpace ((t :: rest).take n) :: windowsN n rest
    else []

/-- The terms (1/2/3-grams) of one document. -/
def sk_terms (doc : List Char) : List (List Char) :=
  let ts := sk_tokens doc
  ts ++ windowsN 2 ts ++ windowsN 3 ts

/-- Term frequency of `t` in `doc`. -/
def tf (doc t : List Char) : ℕ := (sk_terms doc).count t

/-- Document frequency of `t` over the two-document corpus. -/
def df (a b t : List Char) : ℕ :=
  (if 0 < tf a t then 1 else 0) + (if 0 < tf b t then 1 else 0)

/-- Strict lexicographic order on strings (by character code). -/
def lexLt : List Char → List Char → Bool
  | [], [] => false
  | [], _ :: _ => true
  | _ :: _, [] => false
  | c :: cs, d :: ds => if c.toNat < d.toNat then true
      else if d.toNat < c.toNat then false else lexLt cs ds

/-- Insertion sort by a boolean precedence test `lt` (`x` goes before the
first element it precedes). -/
def insSortBy (lt : α → α → Bool) (x : α) : List α → List α
  | [] => [x]
  | y :: ys => if lt x y then x :: y :: ys else y :: insSortBy lt x ys

def sortByLt (lt : α → α → Bool) (l : List α) : List α := l.foldr (insSortBy lt) []

/-- The raw vocabulary: the distinct terms of both documents, sorted
alphabetically (sklearn `_sort_features`). -/
def raw_vocab (a b : List Char) : List (List Char) :=
  sortByLt lexLt (sk_terms a ++ sk_terms b).dedup

/-- The vocabulary after document-frequency pruning: with two documents,
`max_df = 0.95` keeps exactly the terms with document frequency ≤ 1.9, i.e.
the terms of exactly one document. -/
def pruned_vocab (a b : List Char) : List (List Char) :=
  (raw_vocab a b).filter (fun t => df a b t ≤ 1)

/-- Precedence used by the `max_features` cap: higher total corpus term
frequency first (ties by term, a deterministic stand-in for the unspecified
tie order of `np.argsort` in sklearn). -/
def freqLt (a b : List Char) (t1 t2 : List Char) : Bool :=
  if tf a t2 + tf b t2 < tf a t1 + tf b t1 then true
  else if tf a t1 + tf b t1 < tf a t2 + tf b t2 then false
  else lexLt t1 t2

/-- The final vocabulary after the `max_features = 5000` cap. -/
def final_vocab (a b : List Char) : List (List Char) :=
  if (pruned_vocab a b).length ≤ 5000 then pruned_vocab a b
  else (sortByLt (freqLt a b) (pruned_vocab a b)).take 5000

/-- Number of non-zero entries of the document's final TF-IDF row
(`vec.nnz`). -/
def nnz (a b doc : List Char) : ℕ :=
  ((final_vocab a b).filter (fun t => 0 < tf doc t)).length

/-- The `ValueError` sites of `compute_similarity` (including the two raised
inside `TfidfVectorizer.fit_transform`). -/
inductive SimErr where
  | emptyText | emptyVocabulary | prunedEmpty | noSignal
deriving DecidableEq

/-- The control flow of `SimilarityEngine.compute_similarity` up to the point
where a result is guaranteed: which `ValueError`, if any, is raised.  The
checks are in source order: empty input strings, empty raw vocabulary (raised
by `fit_transform`), empty vocabulary after pruning (likewise), and the
`nnz == 0` checks on the two rows. -/
def compute_similarity_err (a b : List Char) : Option SimErr :=
  if a.isEmpty || b.isEmpty then some .emptyText
  else if raw_vocab a b = [] then some .emptyVocabulary
  else if pruned_vocab a b = [] then some .prunedEmpty
  else if nnz a b a = 0 || nnz a b b = 0 then some .noSignal
  else none

/-- Smoothed inverse document frequency `ln((1+n)/(1+df)) + 1` with `n = 2`. -/
noncomputable def tfidf_idf (a b t : List Char) : ℝ :=
  Real.log ((1 + 2) / (1 + (df a b t : ℝ))) + 1

/-- One TF-IDF entry with sublinear term frequency: 0 for an absent term,
`(1 + ln tf) * idf` otherwise. -/
noncomputable def tfidf_weight (a b doc t : List Char) : ℝ :=
  if tf doc t = 0 then 0 else (1 + Real.log (tf doc t)) * tfidf_idf a b t

/-- Euclidean norm of a document row over the final vocabulary. -/
noncomputable def docNorm (a b doc : List Char) : ℝ :=
  Real.sqrt (((final_vocab a b).map (fun t => tfidf_weight a b doc t ^ 2)).sum)

/-- `float(cosine_similarity(resume_vec, jd_vec)[0][0])`: the cosine of the
two rows (the L2 normalisation applied by the transformer cancels here). -/
noncomputable def cosine_score (a b : List Char) : ℝ :=
  (((final_vocab a b).map (fun t => tfidf_weight a b a t * tfidf_weight a b b t)).sum)
    / (docNorm a b a * docNorm a b b)

/-- `SimilarityEngine._jaccard_overlap` of the two rows. -/
def jaccard_overlap (a b : List Char) : ℚ :=
  let inter := ((final_vocab a b).filter (fun t => 0 < tf a t && 0 < tf b t)).length
  let uni := ((final_vocab a b).filter (fun t => 0 < tf a t || 0 < tf b t)).length
  if uni = 0 then 0 else (inter : ℚ) / uni

/-- `SimilarityEngine._jd_coverage` of the two rows. -/
def jd_coverage (a b : List Char) : ℚ :=
  let inter := ((final_vocab a b).filter (fun t => 0 < tf a t && 0 < tf b t)).length
  (inter : ℚ) / max (nnz a b b) 1

open Classical in
/-- `SimilarityEngine._interpret`: the banded label of a score. -/
noncomputable def interpret (s : ℝ) : String :=
  if s ≥ 75/100 then "Strong match"
  else if s ≥ 60/100 then "Good match"
  else if s ≥ 45/100 then "Moderate match"
  else if s ≥ 30/100 then "Weak match"
  else "Poor match"

/-- Result record of `compute_similarity` (the two explainability term lists
are not modelled; see the section comment). -/
structure SimilarityResult where
  overall_score : ℝ
  interpretation : String
  jaccard_similarity : ℚ
  term_coverage : ℚ

/-- The record a successful `compute_similarity` call returns. -/
noncomputable def mkSimResult (a b : List Char) : SimilarityResult :=
  ⟨cosine_score a b, interpret (cosine_score a b),
   jaccard_overlap a b, jd_coverage a b⟩

/-- `SimilarityEngine.compute_similarity`. -/
noncomputable def compute_similarity (a b : List Char) : Except SimErr SimilarityResult :=
  match compute_similarity_err a b with
  | some e => .error e
  | none => .ok (mkSimResult a b)

/-! ### `gap_analysis.py`: the gap analyzer -/

/-- Dataclass `SkillGap`. -/
structure SkillGap where
  skill_match : SkillMatch
  priority : Priority
  impact_score : ℚ
deriving DecidableEq

/-- Property `SkillGap.skill_name`. -/
def SkillGap.skill_name (g : SkillGap) : List Char := g.skill_match.skill.name

/-- Property `SkillGap.category`. -/
def SkillGap.category (g : SkillGap) : SkillCategory := g.skill_match.skill.category

/-- Dataclass `CategoryAnalysis`. -/
structure CategoryAnalysis where
  category : SkillCategory
  coverage : ℚ
  matched_count : ℕ
  weak_count : ℕ
  missing_count : ℕ
deriving DecidableEq

/-- Dataclass `Recommendation`. -/
structure Recommendation where
  priority : String
  title : String
  description : String
  action : String
deriving DecidableEq

/-- Dataclass `GapAnalysisReport` (the category dict is an association
list). -/
structure GapAnalysisReport where
  overall_score : ℚ
  confidence_score : ℚ
  matched_skills : List SkillMatch
  missing_skills : List SkillGap
  weak_matches : List SkillMatch
  category_analysis : List (SkillCategory × CategoryAnalysis)
  recommendations : List Recommendation
deriving DecidableEq

/-- The dict comprehension `{m.skill.name.lower(): m for m in skills}`:
first-occurrence position, last-occurrence value. -/
def buildMap (ms : List SkillMatch) : List (List Char × SkillMatch) :=
  ms.foldl (fun d m => dinsert (matchKey m) m d) []

def mapKeys {α : Type} (d : List (List Char × α)) : List (List Char) :=
  d.map Prod.fst

/-- `GapAnalyzer._classify_matched`: partition the matched keys into strong
(resume confidence ≥ 0.9) and weak matches, in key order (the Python set
iteration order is unspecified; the claims are insensitive to it). -/
def classify_matched (keys : List (List Char))
    (rmap : List (List Char × SkillMatch)) : List SkillMatch × List SkillMatch :=
  match keys with
  | [] => ([], [])
  | k :: rest =>
    let r := classify_matched rest rmap
    match dlookup k rmap with
    | none => r
    | some m => if m.confidence ≥ 9/10 then (m :: r.1, r.2) else (r.1, m :: r.2)

/-- `GapAnalyzer._compute_impact`:
`min((skill_weight * category_weight) / 1.5, 1.0)`. -/
def compute_impact (m : SkillMatch) : ℚ :=
  min ((m.skill.weight * category_weight m.skill.category) / (3/2)) 1

/-- `GapAnalyzer._determine_priority`: the impact thresholds 0.8 / 0.6 / 0.4. -/
def determine_priority (impact : ℚ) : Priority :=
  if impact ≥ 8/10 then .critical
  else if impact ≥ 6/10 then .high
  else if impact ≥ 4/10 then .medium
  else .low

/-- `GapAnalyzer._analyze_missing`: build a gap for each missing key found in
the JD map and sort by impact descending. -/
def analyze_missing (keys : List (List Char))
    (jmap : List (List Char × SkillMatch)) : List SkillGap :=
  sortDescBy SkillGap.impact_score
    (keys.filterMap (fun k => (dlookup k jmap).map
      (fun m => ⟨m, determine_priority (compute_impact m), compute_impact m⟩)))

/-- String value of a category (`SkillCategory(Enum).value`). -/
def SkillCategory.value : SkillCategory → String
  | .languages => "languages"
  | .frameworks => "frameworks"
  | .ml => "ml"
  | .devops => "devops"
  | .cloud => "cloud"
  | .databases => "databases"
  | .fundamentals => "fundamentals"

/-- `GapAnalyzer._analyze_categories`: per-category counts and coverage over
the categories touched by any of the three lists. -/
def analyze_categories (matched weak : List SkillMatch) (missing : List SkillGap) :
    List (SkillCategory × CategoryAnalysis) :=
  let cats := ((matched ++ weak).map (fun m => m.skill.category)
               ++ missing.map SkillGap.category).dedup
  cats.map (fun cat =>
    let cm := (matched.filter (fun m => m.skill.category = cat)).length
    let cw := (weak.filter (fun m => m.skill.category = cat)).length
    let cg := (missing.filter (fun g => g.category = cat)).length
    let total := cm + cw + cg
    let cov : ℚ := if 0 < total then ((cm : ℚ) + (1/2) * cw) / total else 0
    (cat, ⟨cat, cov, cm, cw, cg⟩))

/-- `GapAnalyzer._compute_overall_score`:
`(len(matched) + 0.5 * len(weak)) / len(jd_keys)`, 0 for an empty JD key
set. -/
def compute_overall_score (matched weak : List SkillMatch) (jdKeyCount : ℕ) : ℚ :=
  if jdKeyCount = 0 then 0
  else ((matched.length : ℚ) + (1/2) * weak.length) / jdKeyCount

/-- `GapAnalyzer._compute_confidence_score`: taxonomy-weight-weighted average
confidence over strong and weak matches. -/
def compute_confidence_score (matched weak : List SkillMatch) : ℚ :=
  if matched.isEmpty && weak.isEmpty then 0
  else
    let all := matched ++ weak
    let tw := (all.map (fun m => m.confidence * m.skill.weight)).sum
    let ws := (all.map (fun m => m.skill.weight)).sum
    if ws = 0 then 0 else tw / ws

/-- `GapAnalyzer._generate_recommendations`: up to four conditional
recommendations, capped at five. -/
def generate_recommendations (missing : List SkillGap) (weak : List SkillMatch)
    (categories : List (SkillCategory × CategoryAnalysis)) : List Recommendation :=
  let joinNames (ns : List (List Char)) : String := String.mk (List.intercalate (", ".data) ns)
  let critical := missing.filter (fun g => g.priority = Priority.critical)
  let r1 : List Recommendation :=
    match critical with
    | [] => []
    | g :: _ =>
      [⟨"Critical", "Add Critical Skills",
        "Missing essential skills: " ++ joinNames ((critical.take 3).map SkillGap.skill_name),
        "Gain experience with " ++ String.mk g.skill_name⟩]
  let high := missing.filter (fun g => g.priority = Priority.high)
  let r2 : List Recommendation :=
    match high with
    | [] => []
    | g :: _ =>
      [⟨"High", "Strengthen Core Skills",
        "Important skills missing: " ++ joinNames ((high.take 3).map SkillGap.skill_name),
        "Build projects using " ++ String.mk g.skill_name⟩]
  let r3 : List Recommendation :=
    if weak.isEmpty then []
    else [⟨"Medium", "Strengthen Weak Matches",
          "Low-confidence matches: " ++ joinNames ((weak.take 3).map (fun m => m.skill.name)),
          "Add concrete examples and metrics"⟩]
  let lowCov := categories.filter (fun c => c.2.coverage < 1/2)
  let r4 : List Recommendation :=
    match lowCov with
    | [] => []
    | c :: _ =>
      [⟨"Medium", "Improve Category Coverage",
        "Low coverage in " ++ SkillCategory.value c.2.category,
        "Focus learning in " ++ SkillCategory.value c.2.category ++ " technologies"⟩]
  (r1 ++ r2 ++ r3 ++ r4).take 5

/-- `GapAnalyzer.analyze`. -/
def analyze (resume_skills jd_skills : List SkillMatch) : GapAnalysisReport :=
  let rmap := buildMap resume_skills
  let jmap := buildMap jd_skills
  let matched_keys := (mapKeys rmap).filter (fun k => k ∈ mapKeys jmap)
  let missing_keys := (mapKeys jmap).filter (fun k => k ∉ mapKeys rmap)
  let mw := classify_matched matched_keys rmap
  let missing := analyze_missing missing_keys jmap
  let cats := analyze_categories mw.1 mw.2 missing
  let recs := generate_recommendations missing mw.2 cats
  ⟨compute_overall_score mw.1 mw.2 (mapKeys jmap).length,
   compute_confidence_score mw.1 mw.2,
   mw.1, missing, mw.2, cats, recs⟩

/-! ### Helper lemmas: sorting -/

theorem insertDescBy_perm (f : α → ℚ) (x : α) (l : List α) :
    (insertDescBy f x l).Perm (x :: l) := by
  induction l with
  | nil => exact List.Perm.refl _
  | cons y ys ih =>
    by_cases h : f y > f x
    · simp only [insertDescBy, if_pos h]
      exact (ih.cons y).trans (List.Perm.swap x y ys)
    · simp only [insertDescBy, if_neg h]
      exact List.Perm.refl _

theorem sortDescBy_perm (f : α → ℚ) (l : List α) :
    (sortDescBy f l).Perm l := by
  induction l with
  | nil => exact List.Perm.refl _
  | cons x xs ih =>
    exact (insertDescBy_perm f x (sortDescBy f xs)).trans (ih.cons x)

theorem mem_sortDescBy (f : α → ℚ) (l : List α) (x : α) :
    x ∈ sortDescBy f l ↔ x ∈ l :=
  (sortDescBy_perm f l).mem_iff

theorem insertDescBy_pairwise (f : α → ℚ) (x : α) (l : List α)
    (h : l.Pairwise (fun a b => f b ≤ f a)) :
    (insertDescBy f x l).Pairwise (fun a b => f b ≤ f a) := by
  induction l with
  | nil => simp [insertDescBy]
  | cons y ys ih =>
    rcases List.pairwise_cons.1 h with ⟨hy, hys⟩
    by_cases hgt : f y > f x
    · simp only [insertDescBy, if_pos hgt]
      refine List.pairwise_cons.2 ⟨?_, ih hys⟩
      intro z hz
      rcases List.mem_cons.1 ((insertDescBy_perm f x ys).mem_iff.1 hz) with rfl | hz'
      · exact le_of_lt hgt
      · exact hy z hz'
    · simp only [insertDescBy, if_neg hgt]
      refine List.pairwise_cons.2 ⟨?_, h⟩
      intro z hz
      rcases List.mem_cons.1 hz with rfl | hz'
      · exact le_of_not_lt hgt
      · exact le_trans (hy z hz') (le_of_not_lt hgt)

theorem sortDescBy_pairwise (f : α → ℚ) (l : List α) :
    (sortDescBy f l).Pairwise (fun a b => f b ≤ f a) := by
  induction l with
  | nil => simp [sortDescBy]
  | cons x xs ih => exact insertDescBy_pairwise f x (sortDescBy f xs) ih

theorem insSortBy_perm (lt : α → α → Bool) (x : α) (l : List α) :
    (insSortBy lt x l).Perm (x :: l) := by
  induction l with
  | nil => exact List.Perm.refl _
  | cons y ys ih =>
    by_cases h : lt x y
    · simp only [insSortBy, if_pos h]
      exact List.Perm.refl _
    · simp only [insSortBy, if_neg h]
      exact (ih.cons y).trans (List.Perm.swap x y ys)

theorem sortByLt_perm (lt : α → α → Bool) (l : List α) :
    (sortByLt lt l).Perm l := by
  induction l with
  | nil => exact List.Perm.refl _
  | cons x xs ih =>
    exact (insSortBy_perm lt x (sortByLt lt xs)).trans (ih.cons x)

/-! ### Helper lemmas: the matcher scan -/

theorem matchKey_eq (m : SkillMatch) : matchKey m = skillKey m.skill := rfl

theorem scanMatch_seen_mono (test : Skill → Option SkillMatch) (skills : List Skill) :
    ∀ seen : List (List Char), seen ⊆ (scanMatch test skills seen).2 := by
  induction skills with
  | nil => intro seen; simp [scanMatch]
  | cons s rest ih =>
    intro seen
    simp only [scanMatch]
    by_cases h1 : skillKey s ∈ seen
    · rw [if_pos h1]; exact ih seen
    · rw [if_neg h1]
      cases htest : test s with
      | some m =>
        intro k hk
        exact ih (skillKey s :: seen) (List.mem_cons_of_mem _ hk)
      | none => exact ih seen

theorem scanMatch_sound (test : Skill → Option SkillMatch)
    (htest : ∀ s m, test s = some m → m.skill = s) (skills : List Skill) :
    ∀ seen : List (List Char), ∀ m ∈ (scanMatch test skills seen).1,
      m.skill ∈ skills ∧ test m.skill = some m ∧ skillKey m.skill ∉ seen ∧
      skillKey m.skill ∈ (scanMatch test skills seen).2 := by
  induction skills with
  | nil => intro seen m hm; simp [scanMatch] at hm
  | cons s rest ih =>
    intro seen m hm
    simp only [scanMatch] at hm ⊢
    by_cases h1 : skillKey s ∈ seen
    · rw [if_pos h1] at hm ⊢
      rcases ih seen m hm with ⟨ha, hb, hc, hd⟩
      exact ⟨List.mem_cons_of_mem _ ha, hb, hc, hd⟩
    · rw [if_neg h1] at hm ⊢
      cases htest' : test s with
      | some m0 =>
        rw [htest'] at hm
        dsimp only at hm ⊢
        simp only [List.mem_cons] at hm
        rcases hm with rfl | hm'
        · have hsk : m.skill = s := htest s m htest'
          refine ⟨by simp [hsk], by rw [hsk]; exact htest', by rw [hsk]; exact h1, ?_⟩
          rw [hsk]
          exact scanMatch_seen_mono test rest (skillKey s :: seen) (List.mem_cons_self _ _)
        · rcases ih (skillKey s :: seen) m hm' with ⟨ha, hb, hc, hd⟩
          exact ⟨List.mem_cons_of_mem _ ha, hb,
            fun hmem => hc (List.mem_cons_of_mem _ hmem), hd⟩
      | none =>
        rw [htest'] at hm
        dsimp only at hm ⊢
        rcases ih seen m hm with ⟨ha, hb, hc, hd⟩
        exact ⟨List.mem_cons_of_mem _ ha, hb, hc, hd⟩

theorem scanMatch_nodup (test : Skill → Option SkillMatch)
    (htest : ∀ s m, test s = some m → m.skill = s) (skills : List Skill) :
    ∀ seen : List (List Char),
      (scanMatch test skills seen).1.Pairwise (fun m1 m2 => matchKey m1 ≠ matchKey m2) := by
  induction skills with
  | nil => intro seen; simp [scanMatch]
  | cons s rest ih =>
    intro seen
    simp only [scanMatch]
    by_cases h1 : skillKey s ∈ seen
    · rw [if_pos h1]; exact ih seen
    · rw [if_neg h1]
      cases htest' : test s with
      | some m0 =>
        refine List.pairwise_cons.2 ⟨?_, ih (skillKey s :: seen)⟩
        intro m' hm'
        rcases scanMatch_sound test htest rest (skillKey s :: seen) m' hm' with ⟨_, _, hc, _⟩
        have h0 : m0.skill = s := htest s m0 htest'
        rw [matchKey_eq, matchKey_eq, h0]
        intro heq
        exact hc (by rw [← heq]; exact List.mem_cons_self _ _)
      | none => exact ih seen

theorem scanMatch_complete (test : Skill → Option SkillMatch) (skills : List Skill) :
    ∀ seen : List (List Char), ∀ s ∈ skills,
      (test s).isSome → skillKey s ∈ (scanMatch test skills seen).2 := by
  induction skills with
  | nil => intro seen s hs; simp at hs
  | cons s0 rest ih =>
    intro seen s hs hsome
    simp only [scanMatch]
    rcases List.mem_cons.1 hs with rfl | hs'
    · by_cases h1 : skillKey s ∈ seen
      · rw [if_pos h1]
        exact scanMatch_seen_mono test rest seen h1
      · rw [if_neg h1]
        cases htest' : test s with
        | some m0 =>
          exact scanMatch_seen_mono test rest (skillKey s :: seen) (List.mem_cons_self _ _)
        | none => rw [htest'] at hsome; simp at hsome
    · by_cases h1 : skillKey s0 ∈ seen
      · rw [if_pos h1]; exact ih seen s hs' hsome
      · rw [if_neg h1]
        cases htest' : test s0 with
        | some m0 => exact ih (skillKey s0 :: seen) s hs' hsome
        | none => exact ih seen s hs' hsome

theorem fuzzyGo_ok_empty (tokens : List (List Char)) (skills : List Skill) :
    ∀ (seen : List (List Char)) (p : List SkillMatch × List (List Char)),
      fuzzyGo tokens skills seen = .ok p → p.1 = [] := by
  induction skills with
  | nil =>
    intro seen p h
    simp only [fuzzyGo] at h
    cases h
    rfl
  | cons s rest ih =>
    intro seen p h
    simp only [fuzzyGo] at h
    by_cases h1 : skillKey s ∈ seen || s.strict_match
    · rw [if_pos h1] at h; exact ih seen p h
    · rw [if_neg h1] at h
      by_cases h2 : tokens.isEmpty
      · rw [if_pos h2] at h; exact ih seen p h
      · rw [if_neg h2] at h; cases h

/-- Instances of the per-skill tests used by `scanMatch_sound`. -/
theorem exactTest_skill (text : List Char) :
    ∀ s m, exactTest text s = some m → m.skill = s := by
  intro s m h
  simp only [exactTest] at h
  by_cases hp : exact_pred s (lowerStr text)
  · rw [if_pos hp] at h; cases h; rfl
  · rw [if_neg hp] at h; cases h

theorem variantTest_skill (text : List Char) :
    ∀ s m, variantTest text s = some m → m.skill = s := by
  intro s m h
  simp only [variantTest] at h
  cases hv : firstVariantHit s (lowerStr text) with
  | some v => rw [hv] at h; cases h; rfl
  | none => rw [hv] at h; cases h

theorem exactTest_type (text : List Char) :
    ∀ s m, exactTest text s = some m → m.match_type = "exact" := by
  intro s m h
  simp only [exactTest] at h
  by_cases hp : exact_pred s (lowerStr text)
  · rw [if_pos hp] at h; cases h; rfl
  · rw [if_neg hp] at h; cases h

theorem variantTest_type (text : List Char) :
    ∀ s m, variantTest text s = some m → m.match_type = "variant" := by
  intro s m h
  simp only [variantTest] at h
  cases hv : firstVariantHit s (lowerStr text) with
  | some v => rw [hv] at h; cases h; rfl
  | none => rw [hv] at h; cases h

theorem exactTest_isSome (text : List Char) (s : Skill) :
    (exactTest text s).isSome = exact_pred s (lowerStr text) := by
  simp only [exactTest]
  by_cases hp : exact_pred s (lowerStr text) <;> simp [hp]

theorem variantTest_isSome (text : List Char) (s : Skill) :
    (variantTest text s).isSome = variant_pred s (lowerStr text) := by
  simp only [variantTest, variant_pred]
  cases hv : firstVariantHit s (lowerStr text) <;> simp [hv]

deriving instance DecidableEq for Except

theorem exactTest_pred (text : List Char) (s : Skill) (m : SkillMatch)
    (h : exactTest text s = some m) : exact_pred s (lowerStr text) = true := by
  by_cases hp : exact_pred s (lowerStr text)
  · exact hp
  · rw [exactTest, if_neg hp] at h; cases h

/-- Normal form of a successful extraction on non-empty text: the sorted
concatenation of the exact-stage and variant-stage matches (the fuzzy stage
returns no matches whenever it returns at all). -/
theorem extract_skills_ok_eq (text : List Char) (l : List SkillMatch)
    (hne : text.isEmpty = false) (h : extract_skills text = .ok l) :
    l = sortDescBy SkillMatch.confidence
        ((exact_find_matches text all_skills []).1 ++
         (variant_find_matches text all_skills
           (exact_find_matches text all_skills []).2).1) := by
  rw [extract_skills] at h
  rw [hne] at h
  simp only [Bool.false_eq_true, if_false] at h
  cases hf : fuzzy_find_matches text all_skills
      (variant_find_matches text all_skills (exact_find_matches text all_skills []).2).2 with
  | error e => rw [hf] at h; cases h
  | ok f =>
    rw [hf] at h
    cases h
    have hf1 : f.1 = [] := fuzzyGo_ok_empty _ all_skills _ f hf
    rw [hf1, List.append_nil]

/-- Claim C6: every list the extractor returns has at most one entry per
canonical skill key, and each reported skill carries the tag of the earliest
cascade strategy able to match it — `exact` whenever the exact-match test
fires for its skill on this text, otherwise `variant` (a successful call
never carries fuzzy matches: the fuzzy stage either raises or matches
nothing). -/
theorem extract_skills_unique_and_cascade (text : List Char) (l : List SkillMatch)
    (h : extract_skills text = .ok l) :
    l.Pairwise (fun m1 m2 => matchKey m1 ≠ matchKey m2) ∧
    ∀ m ∈ l, m.match_type =
      (if exact_pred m.skill (lowerStr text) = true then "exact" else "variant") := by
  by_cases hne : text.isEmpty
  · rw [extract_skills, if_pos hne] at h
    cases h
    exact ⟨List.Pairwise.nil, by simp⟩
  · have hl := extract_skills_ok_eq text l (by simpa using hne) h
    have hperm : l.Perm
        ((exact_find_matches text all_skills []).1 ++
         (variant_find_matches text all_skills
           (exact_find_matches text all_skills []).2).1) := by
      rw [hl]; exact sortDescBy_perm _ _
    have hsymm : ∀ {m1 m2 : SkillMatch},
        matchKey m1 ≠ matchKey m2 → matchKey m2 ≠ matchKey m1 := fun hne' => hne'.symm
    constructor
    · refine (List.Perm.pairwise_iff hsymm hperm).2 ?_
      refine List.pairwise_append.2 ⟨?_, ?_, ?_⟩
      · exact scanMatch_nodup (exactTest text) (exactTest_skill text) all_skills []
      · exact scanMatch_nodup (variantTest text) (variantTest_skill text) all_skills _
      · intro m1 hm1 m2 hm2
        rcases scanMatch_sound (exactTest text) (exactTest_skill text) all_skills []
          m1 hm1 with ⟨_, _, _, hd1⟩
        rcases scanMatch_sound (variantTest text) (variantTest_skill text) all_skills
          (exact_find_matches text all_skills []).2 m2 hm2 with ⟨_, _, hc2, _⟩
        rw [matchKey_eq, matchKey_eq]
        intro heq
        exact hc2 (heq ▸ hd1)
    · intro m hm
      have hm' := hperm.mem_iff.1 hm
      rcases List.mem_append.1 hm' with hme | hmv
      · rcases scanMatch_sound (exactTest text) (exactTest_skill text) all_skills []
          m hme with ⟨_, hb, _, _⟩
        rw [if_pos (exactTest_pred text m.skill m hb)]
        exact exactTest_type text m.skill m hb
      · rcases scanMatch_sound (variantTest text) (variantTest_skill text) all_skills
          (exact_find_matches text all_skills []).2 m hmv with ⟨ha, hb, hc, _⟩
        have hnot : exact_pred m.skill (lowerStr text) ≠ true := by
          intro hp
          apply hc
          exact scanMatch_complete (exactTest text) all_skills [] m.skill ha
            (by rw [exactTest_isSome]; exact hp)
        rw [if_neg hnot]
        exact variantTest_type text m.skill m hb

/-- Concrete witness for C6: on the text `go js c` extraction succeeds with
three matches (C and Go exact, JavaScript via the variant `js`). -/
def c6ResultList : List SkillMatch :=
  [⟨cSkill, "exact", 1, ("go js c".data)⟩,
   ⟨goSkill, "exact", 1, ("go js c".data)⟩,
   ⟨javascriptSkill, "variant", 98/100, ("go js c".data)⟩]

theorem extract_skills_unique_and_cascade_witness :
    extract_skills ("go js c".data) = .ok c6ResultList ∧
    (c6ResultList.Pairwise (fun m1 m2 => matchKey m1 ≠ matchKey m2) ∧
     ∀ m ∈ c6ResultList, m.match_type =
       (if exact_pred m.skill (lowerStr ("go js c".data)) = true then "exact" else "variant")) :=
  ⟨by with_unfolding_all decide,
   extract_skills_unique_and_cascade ("go js c".data) c6ResultList
     (by with_unfolding_all decide)⟩

/-- Claim C1 (code bug): extraction is claimed never to fail on a valid
string with strategy-internal errors swallowed per skill, but
`extract_skills` has no exception handler and the fuzzy stage evaluates the
undefined name `fuzz`, so the text `python` (any text with a word-like token
of length ≥ 4 does it) makes the call raise `NameError` to the caller. -/
theorem extract_skills_raises_on_plain_text :
    extract_skills ("python".data) = .error .nameErrorFuzz := by
  with_unfolding_all decide

/-- Claim C3 (code bug): on the normalized text of
`Experienced in Python and Golang` the exact stage produces exactly the
claimed Python match (exact, 1.0) and the variant stage exactly the claimed
Go match (variant `golang`, 0.98) — and no fuzzy Go match could ever arise —
but the full `extract_skills` call raises `NameError` from the fuzzy stage
(undefined name `fuzz`) instead of returning them. -/
theorem extract_skills_golang_text_stages :
    process ("Experienced in Python and Golang".data) =
      ("experienced in python and golang".data) ∧
    (exact_find_matches ("experienced in python and golang".data) all_skills []).1 =
      [⟨pythonSkill, "exact", 1, ("experienced in python and golang".data)⟩] ∧
    (variant_find_matches ("experienced in python and golang".data) all_skills
      (exact_find_matches ("experienced in python and golang".data) all_skills []).2).1 =
      [⟨goSkill, "variant", 98/100, ("experienced in python and golang".data)⟩] ∧
    extract_skills ("experienced in python and golang".data) = .error .nameErrorFuzz := by
  refine ⟨?_, ?_, ?_, ?_⟩ <;> with_unfolding_all decide

/-- Counterexample for C2: in the built-in taxonomy the two distinct skills
Algorithms and Data Structures both declare the variant `dsa`; registration
raised nothing, and the variant index silently maps `dsa` to the
later-registered skill. -/
theorem taxonomy_shared_variant_dsa :
    algorithmsSkill ∈ all_skills ∧ dataStructuresSkill ∈ all_skills ∧
    algorithmsSkill ≠ dataStructuresSkill ∧
    ("dsa".data) ∈ algorithmsSkill.variants ∧
    ("dsa".data) ∈ dataStructuresSkill.variants ∧
    get_by_variant ("dsa".data) = some dataStructuresSkill := by
  refine ⟨?_, ?_, ?_, ?_, ?_, ?_⟩ <;> with_unfolding_all decide

theorem dlookup_dinsert_self {α : Type} (k : List Char) (s : α)
    (d : List (List Char × α)) : dlookup k (dinsert k s d) = some s := by
  induction d with
  | nil => simp [dinsert, dlookup]
  | cons p rest ih =>
    by_cases h : p.1 = k
    · simp [dinsert, h, dlookup]
    · simp only [dinsert]
      rw [if_neg h]
      simp only [dlookup]
      rw [if_neg h]
      exact ih

theorem dlookup_dinsert_ne {α : Type} (k k' : List Char) (s : α)
    (d : List (List Char × α)) (h : k' ≠ k) :
    dlookup k (dinsert k' s d) = dlookup k d := by
  induction d with
  | nil => simp [dinsert, dlookup, h]
  | cons p rest ih =>
    by_cases hp : p.1 = k'
    · simp only [dinsert]
      rw [if_pos hp]
      simp only [dlookup]
      rw [if_neg h, if_neg (hp ▸ h)]
    · simp only [dinsert]
      rw [if_neg hp]
      simp only [dlookup]
      by_cases hk : p.1 = k
      · rw [if_pos hk, if_pos hk]
      · rw [if_neg hk, if_neg hk]
        exact ih

theorem foldl_dinsert_keep {α : Type} (s : α) (v : List Char) :
    ∀ (vs : List (List Char)) (d : List (List Char × α)),
      dlookup v d = some s →
      dlookup v (vs.foldl (fun vi x => dinsert x s vi) d) = some s := by
  intro vs
  induction vs with
  | nil => intro d h; exact h
  | cons x rest ih =>
    intro d h
    simp only [List.foldl_cons]
    apply ih
    by_cases hx : x = v
    · rw [hx]; exact dlookup_dinsert_self v s d
    · rw [dlookup_dinsert_ne v x s d hx]; exact h

/-- Claim C2, amended: `_register` never fails; registering a skill makes
every one of its variants map to the skill in the variant index, silently
overwriting any earlier owner of the same variant (last registration wins). -/
theorem register_last_wins (st : TaxonomyState) (s : Skill) (v : List Char)
    (hv : v ∈ s.variants) :
    dlookup v (register st s).variant_index = some s := by
  rw [register]
  revert hv
  have hgen : ∀ (vs : List (List Char)) (d : List (List Char × Skill)), v ∈ vs →
      dlookup v (vs.foldl (fun vi x => dinsert x s vi) d) = some s := by
    intro vs
    induction vs with
    | nil => intro d h; cases h
    | cons x rest ih =>
      intro d hmem
      simp only [List.foldl_cons]
      rcases List.mem_cons.1 hmem with rfl | hr
      · by_cases hxr : v ∈ rest
        · exact ih _ hxr
        · exact foldl_dinsert_keep s v rest _ (dlookup_dinsert_self v s d)
      · exact ih _ hr
  intro hv
  exact hgen s.variants st.variant_index hv

theorem register_last_wins_witness :
    ("dsa".data) ∈ dataStructuresSkill.variants ∧
    dlookup ("dsa".data)
      (register ⟨[], []⟩ dataStructuresSkill).variant_index = some dataStructuresSkill :=
  ⟨by with_unfolding_all decide,
   register_last_wins ⟨[], []⟩ dataStructuresSkill ("dsa".data)
     (by with_unfolding_all decide)⟩

/-- Counterexample for C10: for the text `javascript` the claim asserts a
returned match list containing Java; the call returns no list at all — it
raises `NameError` (undefined name `fuzz`) from the fuzzy stage. -/
theorem extract_skills_javascript_returns_no_list :
    extract_skills ("javascript".data) = .error .nameErrorFuzz := by
  with_unfolding_all decide

/-- Claim C10, amended: the exact-match strategy itself does use a plain
case-insensitive substring check for non-strict skills, and on the text
`javascript` its match list is exactly a Java match (canonical key `java` is
a substring of `javascript`) followed by a JavaScript match, both exact with
confidence 1.0; the surrounding `extract_skills` call raises before it can
return them (see the counterexample). -/
theorem exact_matcher_substring_java :
    javaSkill.strict_match = false ∧
    containsSub (skillKey javaSkill) (lowerStr ("javascript".data)) = true ∧
    (exact_find_matches ("javascript".data) all_skills []).1 =
      [⟨javaSkill, "exact", 1, ("javascript".data)⟩,
       ⟨javascriptSkill, "exact", 1, ("javascript".data)⟩] := by
  refine ⟨?_, ?_, ?_⟩ <;> with_unfolding_all decide

/-! ### Gap-analyzer lemmas and claims C4 / C5 -/

theorem mem_analyze_missing (keys : List (List Char))
    (jmap : List (List Char × SkillMatch)) (g : SkillGap)
    (hg : g ∈ analyze_missing keys jmap) :
    g.impact_score = compute_impact g.skill_match ∧
    g.priority = determine_priority g.impact_score := by
  rw [analyze_missing] at hg
  have hmem := (mem_sortDescBy _ _ g).1 hg
  rcases List.mem_filterMap.1 hmem with ⟨k, _, hsome⟩
  cases hm : dlookup k jmap with
  | none => rw [hm] at hsome; cases hsome
  | some m =>
    rw [hm] at hsome
    simp only [Option.map_some'] at hsome
    cases hsome
    exact ⟨rfl, rfl⟩

theorem classify_matched_strong (keys : List (List Char))
    (rmap : List (List Char × SkillMatch)) :
    ∀ m ∈ (classify_matched keys rmap).1, m.confidence ≥ 9/10 := by
  induction keys with
  | nil => intro m hm; simp [classify_matched] at hm
  | cons k rest ih =>
    intro m hm
    simp only [classify_matched] at hm
    cases hd : dlookup k rmap with
    | none => rw [hd] at hm; exact ih m hm
    | some m0 =>
      rw [hd] at hm
      dsimp only at hm
      by_cases hc : m0.confidence ≥ 9/10
      · rw [if_pos hc] at hm
        rcases List.mem_cons.1 hm with rfl | hm'
        · exact hc
        · exact ih m hm'
      · rw [if_neg hc] at hm
        exact ih m hm

theorem classify_matched_weak (keys : List (List Char))
    (rmap : List (List Char × SkillMatch)) :
    ∀ m ∈ (classify_matched keys rmap).2, m.confidence < 9/10 := by
  induction keys with
  | nil => intro m hm; simp [classify_matched] at hm
  | cons k rest ih =>
    intro m hm
    simp only [classify_matched] at hm
    cases hd : dlookup k rmap with
    | none => rw [hd] at hm; exact ih m hm
    | some m0 =>
      rw [hd] at hm
      dsimp only at hm
      by_cases hc : m0.confidence ≥ 9/10
      · rw [if_pos hc] at hm
        exact ih m hm
      · rw [if_neg hc] at hm
        rcases List.mem_cons.1 hm with rfl | hm'
        · exact lt_of_not_ge hc
        · exact ih m hm'

/-- Example matches for the fixed Gap-Analyzer scenario of the spec. -/
def pyMatchEx : SkillMatch := ⟨pythonSkill, "exact", 1, []⟩

def dockerMatchEx : SkillMatch := ⟨dockerSkill, "exact", 1, []⟩

/-- Claim C4: every missing gap carries
`impact = min((skillWeight * categoryWeight) / 1.5, 1.0)` under the fixed
category-weight table, its priority is the threshold mapping of that impact
(≥ 0.8 Critical, ≥ 0.6 High, ≥ 0.4 Medium, else Low), the missing list is
sorted by impact descending, and in the concrete Python/Docker scenario the
only gap is Docker with impact 0.6 and priority High while the overall score
is 0.5. -/
theorem missing_gap_impact_priority_sorted (r j : List SkillMatch) :
    (∀ g ∈ (analyze r j).missing_skills,
       g.impact_score =
         min ((g.skill_match.skill.weight *
               category_weight g.skill_match.skill.category) / (3/2)) 1 ∧
       g.priority = determine_priority g.impact_score) ∧
    (analyze r j).missing_skills.Pairwise
      (fun g1 g2 => g2.impact_score ≤ g1.impact_score) ∧
    (category_weight .fundamentals = 13/10 ∧ category_weight .languages = 12/10 ∧
     category_weight .frameworks = 1 ∧ category_weight .ml = 1 ∧
     category_weight .cloud = 1 ∧ category_weight .devops = 9/10 ∧
     category_weight .databases = 9/10) ∧
    (∀ q : ℚ, determine_priority q =
       if q ≥ 8/10 then .critical else if q ≥ 6/10 then .high
       else if q ≥ 4/10 then .medium else .low) ∧
    (analyze [pyMatchEx] [pyMatchEx, dockerMatchEx]).missing_skills =
      [⟨dockerMatchEx, .high, 3/5⟩] ∧
    (analyze [pyMatchEx] [pyMatchEx, dockerMatchEx]).overall_score = 1/2 := by
  refine ⟨?_, ?_, ⟨rfl, rfl, rfl, rfl, rfl, rfl, rfl⟩, fun _ => rfl, ?_, ?_⟩
  · intro g hg
    exact mem_analyze_missing _ _ g hg
  · exact sortDescBy_pairwise _ _
  · with_unfolding_all decide
  · with_unfolding_all decide

theorem missing_gap_witness :
    (⟨dockerMatchEx, .high, 3/5⟩ : SkillGap) ∈
      (analyze [pyMatchEx] [pyMatchEx, dockerMatchEx]).missing_skills ∧
    (⟨dockerMatchEx, .high, 3/5⟩ : SkillGap).impact_score =
      min ((dockerSkill.weight * category_weight dockerSkill.category) / (3/2)) 1 :=
  ⟨by with_unfolding_all decide,
   ((missing_gap_impact_priority_sorted [pyMatchEx] [pyMatchEx, dockerMatchEx]).1
     ⟨dockerMatchEx, .high, 3/5⟩ (by with_unfolding_all decide)).1⟩

/-- Claim C5: strong matches are the resume-side matched skills with
confidence ≥ 0.9, weak ones those below, the overall score is
`(strong + 0.5 * weak) / |jdKeys|` (0 when the JD key set is empty), and an
empty JD skill list yields score 0 with an empty missing list while the
report is still produced. -/
theorem overall_score_formula (r j : List SkillMatch) :
    (∀ m ∈ (analyze r j).matched_skills, m.confidence ≥ 9/10) ∧
    (∀ m ∈ (analyze r j).weak_matches, m.confidence < 9/10) ∧
    ((analyze r j).overall_score =
      if (mapKeys (buildMap j)).length = 0 then 0
      else (((analyze r j).matched_skills.length : ℚ)
            + (1/2) * (analyze r j).weak_matches.length)
           / (mapKeys (buildMap j)).length) ∧
    (j = [] → (analyze r j).overall_score = 0 ∧ (analyze r j).missing_skills = []) := by
  refine ⟨?_, ?_, rfl, ?_⟩
  · intro m hm
    exact classify_matched_strong _ _ m hm
  · intro m hm
    exact classify_matched_weak _ _ m hm
  · intro hj
    subst hj
    exact ⟨rfl, rfl⟩

theorem overall_score_formula_witness :
    (analyze [pyMatchEx] ([] : List SkillMatch)).overall_score = 0 ∧
    (analyze [pyMatchEx] ([] : List SkillMatch)).missing_skills = [] :=
  (overall_score_formula [pyMatchEx] []).2.2.2 rfl

/-! ### Similarity lemmas and claims C8 / C9 -/

theorem final_vocab_subset (a b : List Char) :
    final_vocab a b ⊆ pruned_vocab a b := by
  rw [final_vocab]
  by_cases h : (pruned_vocab a b).length ≤ 5000
  · rw [if_pos h]
    exact fun t ht => ht
  · rw [if_neg h]
    intro t ht
    exact ((sortByLt_perm _ _).mem_iff).1 (List.take_subset 5000 _ ht)

theorem mem_pruned_df (a b t : List Char) (h : t ∈ pruned_vocab a b) :
    df a b t ≤ 1 := by
  rw [pruned_vocab] at h
  have := List.of_mem_filter h
  exact of_decide_eq_true this

theorem df_le_one_tf_zero (a b t : List Char) (h : df a b t ≤ 1) :
    tf a t = 0 ∨ tf b t = 0 := by
  rw [df] at h
  by_cases ha : 0 < tf a t
  · by_cases hb : 0 < tf b t
    · rw [if_pos ha, if_pos hb] at h
      omega
    · exact Or.inr (Nat.eq_zero_of_not_pos hb)
  · exact Or.inl (Nat.eq_zero_of_not_pos ha)

/-- With the pair-fit configuration (`max_df = 0.95` over exactly two
documents) every surviving vocabulary term lives in exactly one document, so
each product in the cosine numerator has a zero factor: the returned score is
always exactly 0. -/
theorem cosine_score_zero (a b : List Char) : cosine_score a b = 0 := by
  rw [cosine_score]
  have hnum : (((final_vocab a b).map
      (fun t => tfidf_weight a b a t * tfidf_weight a b b t)).sum : ℝ) = 0 := by
    apply List.sum_eq_zero
    intro x hx
    rcases List.mem_map.1 hx with ⟨t, ht, rfl⟩
    rcases df_le_one_tf_zero a b t (mem_pruned_df a b t (final_vocab_subset a b ht)) with h0 | h0
    · rw [show tfidf_weight a b a t = 0 from by rw [tfidf_weight, if_pos h0], zero_mul]
    · rw [show tfidf_weight a b b t = 0 from by rw [tfidf_weight, if_pos h0], mul_zero]
  rw [hnum, zero_div]

/-- Claim C8: on any pair of texts where both call directions succeed, the
two directions return the same overall score. -/
theorem compute_similarity_symmetric (a b : List Char) (ra rb : SimilarityResult)
    (h1 : compute_similarity a b = .ok ra) (h2 : compute_similarity b a = .ok rb) :
    ra.overall_score = rb.overall_score := by
  rw [compute_similarity] at h1 h2
  cases he1 : compute_similarity_err a b with
  | some e => rw [he1] at h1; cases h1
  | none =>
    rw [he1] at h1
    cases he2 : compute_similarity_err b a with
    | some e => rw [he2] at h2; cases h2
    | none =>
      rw [he2] at h2
      cases h1
      cases h2
      show (mkSimResult a b).overall_score = (mkSimResult b a).overall_score
      show cosine_score a b = cosine_score b a
      rw [cosine_score_zero, cosine_score_zero]

theorem compute_similarity_symmetric_witness :
    (mkSimResult ("python".data) ("java".data)).overall_score =
    (mkSimResult ("java".data) ("python".data)).overall_score :=
  compute_similarity_symmetric ("python".data) ("java".data) _ _
    (by rw [compute_similarity,
          show compute_similarity_err ("python".data) ("java".data) = none from
            by with_unfolding_all decide])
    (by rw [compute_similarity,
          show compute_similarity_err ("java".data) ("python".data) = none from
            by with_unfolding_all decide])

theorem nnz_of_pruned_nil (a b : List Char) (h : pruned_vocab a b = []) :
    ∀ doc, nnz a b doc = 0 := by
  intro doc
  rw [nnz, final_vocab, h]
  simp

theorem pruned_of_raw_nil (a b : List Char) (h : raw_vocab a b = []) :
    pruned_vocab a b = [] := by
  rw [pruned_vocab, h]
  rfl

/-- Claim C9: `compute_similarity` raises a `ValueError` exactly when one of
the input texts is empty or one of them carries an all-zero vector over the
final vocabulary; on every other input it returns a result. -/
theorem compute_similarity_failure_iff (a b : List Char) :
    (compute_similarity_err a b).isSome = true ↔
      (a = [] ∨ b = [] ∨ nnz a b a = 0 ∨ nnz a b b = 0) := by
  rw [compute_similarity_err]
  by_cases hab : a.isEmpty || b.isEmpty
  · rw [if_pos hab]
    refine iff_of_true rfl ?_
    simp only [Bool.or_eq_true] at hab
    rcases hab with h | h
    · exact Or.inl (List.isEmpty_iff.1 h)
    · exact Or.inr (Or.inl (List.isEmpty_iff.1 h))
  · rw [if_neg hab]
    have hane : ¬ a = [] := by
      intro h; apply hab; rw [h]; simp
    have hbne : ¬ b = [] := by
      intro h; apply hab; rw [h]; simp
    by_cases hraw : raw_vocab a b = []
    · rw [if_pos hraw]
      exact iff_of_true rfl
        (Or.inr (Or.inr (Or.inl (nnz_of_pruned_nil a b (pruned_of_raw_nil a b hraw) a))))
    · rw [if_neg hraw]
      by_cases hpr : pruned_vocab a b = []
      · rw [if_pos hpr]
        exact iff_of_true rfl (Or.inr (Or.inr (Or.inl (nnz_of_pruned_nil a b hpr a))))
      · rw [if_neg hpr]
        by_cases hnz : nnz a b a = 0 || nnz a b b = 0
        · rw [if_pos hnz]
          refine iff_of_true rfl ?_
          simp only [Bool.or_eq_true] at hnz
          rcases hnz with h | h
          · exact Or.inr (Or.inr (Or.inl (by exact of_decide_eq_true h)))
          · exact Or.inr (Or.inr (Or.inr (by exact of_decide_eq_true h)))
        · rw [if_neg hnz]
          refine iff_of_false (by simp) ?_
          intro hcon
          rcases hcon with h | h | h | h
          · exact hane h
          · exact hbne h
          · exact hnz (by rw [h]; simp)
          · exact hnz (by rw [h]; simp)

/-- Concrete instance of C9: two identical non-empty documents fail — every
term is shared, so `max_df` pruning empties both vectors. -/
theorem compute_similarity_failure_iff_witness :
    (compute_similarity_err ("python".data) ("python".data)).isSome = true :=
  (compute_similarity_failure_iff ("python".data) ("python".data)).2
    (Or.inr (Or.inr (Or.inl (by with_unfolding_all decide))))

/-! ### Normalizer lemmas and claim C7 -/

theorem char_le_iff (a b : Char) : a ≤ b ↔ a.toNat ≤ b.toNat := by
  rw [Char.le_def]
  exact UInt32.le_def

theorem toNat_lowerChar (c : Char) (h : 'A' ≤ c ∧ c ≤ 'Z') :
    (lowerChar c).toNat = c.toNat + 32 := by
  rw [lowerChar, if_pos h]
  have h2 : c.toNat ≤ 90 := by
    have := (char_le_iff c 'Z').1 h.2
    simpa using this
  have hv : (c.toNat + 32).isValidChar := Or.inl (by omega)
  simp [Char.ofNat, hv, Char.ofNatAux]
  rfl

theorem lowerChar_idem (c : Char) : lowerChar (lowerChar c) = lowerChar c := by
  by_cases h : 'A' ≤ c ∧ c ≤ 'Z'
  · have h1 : 65 ≤ c.toNat := by
      have := (char_le_iff 'A' c).1 h.1
      simpa using this
    have h2 : c.toNat ≤ 90 := by
      have := (char_le_iff c 'Z').1 h.2
      simpa using this
    have hl : (lowerChar c).toNat = c.toNat + 32 := toNat_lowerChar c h
    have hno : ¬ ('A' ≤ lowerChar c ∧ lowerChar c ≤ 'Z') := by
      intro hc
      have ha := (char_le_iff 'A' (lowerChar c)).1 hc.1
      have hb := (char_le_iff (lowerChar c) 'Z').1 hc.2
      have hA : ('A' : Char).toNat = 65 := by decide
      have hZ : ('Z' : Char).toNat = 90 := by decide
      omega
    conv_lhs => rw [lowerChar]
    rw [if_neg hno]
  · have hc : lowerChar c = c := by rw [lowerChar, if_neg h]
    rw [hc, hc]

theorem isKeptChar_ascii (c : Char) (h : isKeptChar c = true) : c.toNat < 128 := by
  have hb : ∀ a b : Char, a ≤ c → c ≤ b → b.toNat < 128 → c.toNat < 128 := by
    intro a b _ h2 h3
    have := (char_le_iff c b).1 h2
    omega
  simp only [isKeptChar, Bool.or_eq_true] at h
  rcases h with ((((hw | hs) | h1) | h1) | h1) | h1
  · simp only [isWordChar, Bool.or_eq_true] at hw
    rcases hw with ha | hu
    · simp only [Char.isAlphanum, Bool.or_eq_true] at ha
      rcases ha with hal | hd
      · simp only [Char.isAlpha, Bool.or_eq_true] at hal
        rcases hal with h' | h'
        · simp only [Char.isUpper, Bool.and_eq_true, decide_eq_true_eq] at h'
          exact hb 'A' 'Z' h'.1 h'.2 (by decide)
        · simp only [Char.isLower, Bool.and_eq_true, decide_eq_true_eq] at h'
          exact hb 'a' 'z' h'.1 h'.2 (by decide)
      · simp only [Char.isDigit, Bool.and_eq_true, decide_eq_true_eq] at hd
        exact hb '0' '9' hd.1 hd.2 (by decide)
    · rw [eq_of_beq hu]; decide
  · simp only [pyIsSpace, Bool.or_eq_true] at hs
    rcases hs with ((((h1 | h1) | h1) | h1) | h1) | h1 <;> (rw [eq_of_beq h1]; decide)
  · rw [eq_of_beq h1]; decide
  · rw [eq_of_beq h1]; decide
  · rw [eq_of_beq h1]; decide
  · rw [eq_of_beq h1]; decide

theorem isKeptChar_not_at (c : Char) (h : isKeptChar c = true) : c ≠ '@' := by
  intro hc
  rw [hc] at h
  exact absurd h (by decide)

theorem map_id_of {α : Type} (f : α → α) (l : List α) (h : ∀ c ∈ l, f c = c) :
    l.map f = l := by
  induction l with
  | nil => rfl
  | cons c rest ih =>
    simp only [List.map_cons]
    rw [h c (List.mem_cons_self _ _), ih (fun d hd => h d (List.mem_cons_of_mem _ hd))]

/-- Characters coming out of the character-class replacement are kept-class
characters or spaces, and are lower-case stable when the input was already
lower-cased. -/
theorem charclass_sub_chars (s : List Char) :
    ∀ c ∈ charclass_sub (lowerStr s), isKeptChar c = true ∧ lowerChar c = c := by
  intro c hc
  rcases List.mem_map.1 hc with ⟨d, hd, rfl⟩
  rcases List.mem_map.1 hd with ⟨e, _, rfl⟩
  by_cases hk : isKeptChar (lowerChar e) = true
  · rw [if_pos hk]
    exact ⟨hk, lowerChar_idem e⟩
  · rw [if_neg hk]
    exact ⟨by decide, by decide⟩

theorem squeeze_mem (l : List Char) : ∀ c ∈ squeeze l, c ∈ l ∨ c = ' ' := by
  induction l with
  | nil => intro c hc; cases hc
  | cons a rest ih =>
    cases rest with
    | nil =>
      intro c hc
      simp only [squeeze] at hc
      by_cases ha : pyIsSpace a = true
      · rw [if_pos ha] at hc
        rcases List.mem_singleton.1 hc with rfl
        exact Or.inr rfl
      · rw [if_neg ha] at hc
        rcases List.mem_singleton.1 hc with rfl
        exact Or.inl (List.mem_cons_self _ _)
    | cons d rest2 =>
      intro c hc
      simp only [squeeze] at hc
      by_cases hsp : pyIsSpace a = true ∧ pyIsSpace d = true
      · rw [if_pos (by simp [hsp.1, hsp.2])] at hc
        rcases ih c hc with h | h
        · exact Or.inl (List.mem_cons_of_mem _ h)
        · exact Or.inr h
      · rw [if_neg (by simpa using hsp)] at hc
        rcases List.mem_cons.1 hc with rfl | hc'
        · by_cases ha : pyIsSpace a = true
          · rw [if_pos ha]; exact Or.inr rfl
          · rw [if_neg ha]; exact Or.inl (List.mem_cons_self _ _)
        · rcases ih c hc' with h | h
          · exact Or.inl (List.mem_cons_of_mem _ h)
          · exact Or.inr h

theorem squeeze_space_is_blank (l : List Char) :
    ∀ c ∈ squeeze l, pyIsSpace c = true → c = ' ' := by
  induction l with
  | nil => intro c hc; cases hc
  | cons a rest ih =>
    cases rest with
    | nil =>
      intro c hc hsp
      simp only [squeeze] at hc
      by_cases ha : pyIsSpace a = true
      · rw [if_pos ha] at hc
        exact List.mem_singleton.1 hc
      · rw [if_neg ha] at hc
        rcases List.mem_singleton.1 hc with rfl
        exact absurd hsp ha
    | cons d rest2 =>
      intro c hc hsp
      simp only [squeeze] at hc
      by_cases hboth : pyIsSpace a = true ∧ pyIsSpace d = true
      · rw [if_pos (by simp [hboth.1, hboth.2])] at hc
        exact ih c hc hsp
      · rw [if_neg (by simpa using hboth)] at hc
        rcases List.mem_cons.1 hc with rfl | hc'
        · by_cases ha : pyIsSpace a = true
          · rw [if_pos ha]
          · rw [if_neg ha] at hsp ⊢
            exact absurd hsp ha
        · exact ih c hc' hsp

theorem mem_pyStrip (l : List Char) : ∀ c ∈ pyStrip l, c ∈ l := by
  intro c hc
  rw [pyStrip, List.mem_reverse] at hc
  have h1 : c ∈ (l.dropWhile pyIsSpace).reverse :=
    (List.dropWhile_sublist pyIsSpace).subset hc
  rw [List.mem_reverse] at h1
  exact (List.dropWhile_sublist pyIsSpace).subset h1

/-- No two adjacent whitespace characters (the state after whitespace
collapsing). -/
def noTwoSpaces (l : List Char) : Prop :=
  l.Chain' (fun a b => ¬(pyIsSpace a = true ∧ pyIsSpace b = true))

theorem squeeze_head_nonspace (d : Char) (rest : List Char)
    (hd : pyIsSpace d = false) : ∃ t', squeeze (d :: rest) = d :: t' := by
  cases rest with
  | nil => exact ⟨[], by simp [squeeze, hd]⟩
  | cons r rs =>
    refine ⟨squeeze (r :: rs), ?_⟩
    simp [squeeze, hd]

theorem squeeze_chain (l : List Char) : noTwoSpaces (squeeze l) := by
  induction l with
  | nil => exact List.chain'_nil
  | cons a rest ih =>
    cases rest with
    | nil =>
      simp only [squeeze]
      by_cases ha : pyIsSpace a = true
      · rw [if_pos ha]; exact List.chain'_singleton _
      · rw [if_neg ha]; exact List.chain'_singleton _
    | cons d rest2 =>
      simp only [squeeze]
      by_cases hboth : pyIsSpace a = true ∧ pyIsSpace d = true
      · rw [if_pos (by simp [hboth.1, hboth.2])]
        exact ih
      · rw [if_neg (by simpa using hboth)]
        refine List.chain'_cons'.2 ⟨?_, ih⟩
        intro y hy
        by_cases ha : pyIsSpace a = true
        · have hdns : pyIsSpace d = false := by
            by_cases hdd : pyIsSpace d = true
            · exact absurd ⟨ha, hdd⟩ hboth
            · exact Bool.not_eq_true _ ▸ (by simpa using hdd)
          rcases squeeze_head_nonspace d rest2 hdns with ⟨t', ht'⟩
          rw [ht'] at hy
          simp only [List.head?_cons, Option.mem_def, Option.some.injEq] at hy
          subst hy
          rw [if_pos ha]
          intro hcon
          rw [hdns] at hcon
          exact Bool.false_ne_true hcon.2
        · rw [if_neg ha]
          intro hcon
          exact ha hcon.1

theorem chain'_dropWhile {α : Type} {R : α → α → Prop} (p : α → Bool) :
    ∀ {l : List α}, l.Chain' R → (l.dropWhile p).Chain' R := by
  intro l
  induction l with
  | nil => intro _; exact List.chain'_nil
  | cons c t ih =>
    intro h
    by_cases hp : p c
    · rw [List.dropWhile_cons, if_pos hp]
      exact ih (List.chain'_cons'.1 h).2
    · rw [List.dropWhile_cons, if_neg hp]
      exact h

theorem noTwoSpaces_pyStrip (l : List Char) (h : noTwoSpaces l) :
    noTwoSpaces (pyStrip l) := by
  have hswap : ∀ a b : Char,
      ¬(pyIsSpace a = true ∧ pyIsSpace b = true) →
      ¬(pyIsSpace b = true ∧ pyIsSpace a = true) := by
    intro a b hab hc
    exact hab ⟨hc.2, hc.1⟩
  rw [pyStrip]
  have h1 : noTwoSpaces (l.dropWhile pyIsSpace) := chain'_dropWhile pyIsSpace h
  have h2 : noTwoSpaces (l.dropWhile pyIsSpace).reverse :=
    List.chain'_reverse.2 (List.Chain'.imp (fun a b hab => hswap a b hab) h1)
  have h3 : noTwoSpaces ((l.dropWhile pyIsSpace).reverse.dropWhile pyIsSpace) :=
    chain'_dropWhile pyIsSpace h2
  exact List.chain'_reverse.2 (List.Chain'.imp (fun a b hab => hswap a b hab) h3)

theorem dropWhile_head_false {p : Char → Bool} :
    ∀ {l : List Char} {c : Char}, (l.dropWhile p).head? = some c → p c = false := by
  intro l
  induction l with
  | nil => intro c h; cases h
  | cons a t ih =>
    intro c h
    by_cases hp : p a
    · rw [List.dropWhile_cons, if_pos hp] at h
      exact ih h
    · rw [List.dropWhile_cons, if_neg hp] at h
      simp only [List.head?_cons, Option.some.injEq] at h
      subst h
      simpa using hp

theorem getLast?_of_suffix {l₁ l₂ : List Char} (h : l₁ <:+ l₂) (hne : l₁ ≠ []) :
    l₂.getLast? = l₁.getLast? := by
  obtain ⟨t, rfl⟩ := h
  rw [List.getLast?_append]
  cases hl : l₁.getLast? with
  | none => exact absurd (List.getLast?_eq_none_iff.1 hl) hne
  | some a => rfl

theorem pyStrip_head_nonspace (l : List Char) (c : Char)
    (h : (pyStrip l).head? = some c) : pyIsSpace c = false := by
  rw [pyStrip, List.head?_reverse] at h
  have hne : (l.dropWhile pyIsSpace).reverse.dropWhile pyIsSpace ≠ [] := by
    intro hnil
    rw [hnil] at h
    cases h
  have := getLast?_of_suffix (List.dropWhile_suffix pyIsSpace) hne
  rw [← this, List.getLast?_reverse] at h
  exact dropWhile_head_false h

theorem pyStrip_last_nonspace (l : List Char) (c : Char)
    (h : (pyStrip l).getLast? = some c) : pyIsSpace c = false := by
  rw [pyStrip, List.getLast?_reverse] at h
  exact dropWhile_head_false h

theorem dropWhile_eq_self_of_head {p : Char → Bool} {l : List Char}
    (h : ∀ c, l.head? = some c → p c = false) : l.dropWhile p = l := by
  cases l with
  | nil => rfl
  | cons a t =>
    rw [List.dropWhile_cons, if_neg]
    rw [h a rfl]
    simp

theorem pyStrip_eq_self (l : List Char)
    (hh : ∀ c, l.head? = some c → pyIsSpace c = false)
    (hl : ∀ c, l.getLast? = some c → pyIsSpace c = false) : pyStrip l = l := by
  rw [pyStrip, dropWhile_eq_self_of_head hh, dropWhile_eq_self_of_head
    (fun c hc => hl c (by rwa [List.head?_reverse] at hc)), List.reverse_reverse]

theorem squeeze_eq_self (l : List Char) (hch : noTwoSpaces l)
    (hsp : ∀ c ∈ l, pyIsSpace c = true → c = ' ') : squeeze l = l := by
  induction l with
  | nil => rfl
  | cons a rest ih =>
    cases rest with
    | nil =>
      simp only [squeeze]
      by_cases ha : pyIsSpace a = true
      · rw [if_pos ha, hsp a (List.mem_cons_self _ _) ha]
      · rw [if_neg ha]
    | cons d rest2 =>
      have hR := (List.chain'_cons.1 hch).1
      have htail := (List.chain'_cons'.1 hch).2
      simp only [squeeze]
      rw [if_neg (by simpa using hR)]
      have htl : squeeze (d :: rest2) = d :: rest2 :=
        ih htail (fun c hc hc' => hsp c (List.mem_cons_of_mem _ hc) hc')
      rw [htl]
      by_cases ha : pyIsSpace a = true
      · rw [if_pos ha, hsp a (List.mem_cons_self _ _) ha]
      · rw [if_neg ha]

theorem ascii_clean_eq_self (l : List Char) (h : ∀ c ∈ l, c.toNat < 128) :
    ascii_clean l = l :=
  List.filter_eq_self.2 (fun c hc => decide_eq_true (h c hc))

theorem email_sub_go_eq_self (fuel : ℕ) :
    ∀ l : List Char, (∀ c ∈ l, c ≠ '@') → subScan emailMatchLen fuel l = l := by
  induction fuel with
  | zero => intro l _; rfl
  | succ f ih =>
    intro l h
    cases l with
    | nil => rfl
    | cons c rest =>
      have hml : emailMatchLen (c :: rest) = none := by
        rw [emailMatchLen]
        rw [if_neg]
        intro hcon
        have h1 : '@' ∈ (((c :: rest).takeWhile nonspace).drop 1).dropLast :=
          (List.elem_iff).1 hcon
        have h2 : '@' ∈ ((c :: rest).takeWhile nonspace).drop 1 :=
          (List.dropLast_sublist _).subset h1
        have h3 : '@' ∈ (c :: rest).takeWhile nonspace :=
          List.drop_subset 1 _ h2
        have h4 : '@' ∈ c :: rest := (List.takeWhile_sublist nonspace).subset h3
        exact h '@' h4 rfl
      rw [subScan, hml]
      rw [ih rest (fun d hd => h d (List.mem_cons_of_mem _ hd))]

theorem email_sub_eq_self (l : List Char) (h : ∀ c ∈ l, c ≠ '@') :
    email_sub l = l :=
  email_sub_go_eq_self l.length l h

theorem lowerStr_eq_self (l : List Char) (h : ∀ c ∈ l, lowerChar c = c) :
    lowerStr l = l :=
  map_id_of lowerChar l h

theorem charclass_sub_eq_self (l : List Char) (h : ∀ c ∈ l, isKeptChar c = true) :
    charclass_sub l = l := by
  apply map_id_of
  intro c hc
  rw [if_pos (h c hc)]

theorem subBoundaryGo_eq_self (pat : List Char) :
    ∀ (fuel : ℕ) (prev : Option Char) (l : List Char),
      subBoundaryGo pat fuel prev l = l := by
  intro fuel
  induction fuel with
  | zero => intro prev l; rfl
  | succ f ih =>
    intro prev l
    cases l with
    | nil => rfl
    | cons c rest =>
      simp only [subBoundaryGo]
      by_cases hc : startsWith pat (c :: rest) = true
      · by_cases hcond : (startsWith pat (c :: rest) &&
            ((match prev with | some p => isWordChar p | none => false) != isWordChar c) &&
            ((match pat.getLast? with | some p => isWordChar p | none => false) !=
             (match (c :: rest).drop pat.length with | a :: _ => isWordChar a | [] => false))) = true
        · rw [if_pos hcond, ih]
          have htake : (c :: rest).take pat.length = pat := by
            have := of_decide_eq_true (by simpa [startsWith] using hc)
            exact this
          conv_rhs => rw [← List.take_append_drop pat.length (c :: rest)]
          rw [htake]
        · rw [if_neg hcond, ih]
      · rw [if_neg (by simp [hc]), ih]

theorem subBoundary_eq_self (pat l : List Char) : subBoundary pat l = l := by
  rw [subBoundary]
  by_cases hp : pat.isEmpty
  · rw [if_pos hp]
  · rw [if_neg hp, subBoundaryGo_eq_self]

theorem technical_pass_eq_self (l : List Char) : technical_pass l = l := by
  simp [technical_pass, technicalLits, subBoundary_eq_self]

/-- Counterexample for C7: the URL regex is case-sensitive and runs before
lower-casing, so `aHTTPb` normalizes to `ahttpb`, which a second pass then
mangles to `a` by stripping `httpb` as a URL — the normalizer is not
idempotent. -/
theorem process_not_idempotent :
    process (process ("aHTTPb".data)) ≠ process ("aHTTPb".data) := by
  with_unfolding_all decide

/-- Claim C7, amended: the normalizer is idempotent on every input whose
normalized output is left unchanged by the URL-removal and the phone-removal
steps; the two counterexample families (an upper-case URL marker that only
becomes recognizable after lower-casing, and a phone-shaped digit grouping
created by punctuation replacement) are exactly the inputs these hypotheses
exclude.  All remaining steps are proved to fix the output unconditionally. -/
theorem process_idempotent_conditional (x : List Char)
    (hu : url_sub (process x) = process x)
    (hp : phone_sub (process x) = process x) :
    process (process x) = process x := by
  by_cases hye : (process x).isEmpty = true
  · have h0 : process x = [] := List.isEmpty_iff.1 hye
    rw [h0]
    rfl
  · have hxe : ¬ (x.isEmpty = true) := by
      intro h
      apply hye
      rw [process, if_pos h]
      rfl
    have hyz : process x =
        pyStrip (squeeze (charclass_sub (lowerStr
          (phone_sub (email_sub (url_sub (ascii_clean x))))))) := by
      conv_lhs => rw [process]
      rw [if_neg hxe, technical_pass_eq_self, collapseWs]
    have hchars : ∀ c ∈ process x,
        isKeptChar c = true ∧ lowerChar c = c ∧ c.toNat < 128 ∧
        (pyIsSpace c = true → c = ' ') := by
      intro c hc
      rw [hyz] at hc
      have hc1 := mem_pyStrip _ c hc
      have hsp := squeeze_space_is_blank _ c hc1
      rcases squeeze_mem _ c hc1 with hz | hsp'
      · rcases charclass_sub_chars _ c hz with ⟨hk, hlow⟩
        exact ⟨hk, hlow, isKeptChar_ascii c hk, hsp⟩
      · subst hsp'
        exact ⟨by decide, by decide, by decide, fun _ => rfl⟩
    have hchain : noTwoSpaces (process x) := by
      rw [hyz]
      exact noTwoSpaces_pyStrip _ (squeeze_chain _)
    have hh : ∀ c, (process x).head? = some c → pyIsSpace c = false := by
      intro c hc
      rw [hyz] at hc
      exact pyStrip_head_nonspace _ c hc
    have hl : ∀ c, (process x).getLast? = some c → pyIsSpace c = false := by
      intro c hc
      rw [hyz] at hc
      exact pyStrip_last_nonspace _ c hc
    conv_lhs => rw [process]
    rw [if_neg hye,
        ascii_clean_eq_self (process x) (fun c hc => (hchars c hc).2.2.1),
        hu,
        email_sub_eq_self (process x)
          (fun c hc => isKeptChar_not_at c (hchars c hc).1),
        hp,
        lowerStr_eq_self (process x) (fun c hc => (hchars c hc).2.1),
        charclass_sub_eq_self (process x) (fun c hc => (hchars c hc).1),
        collapseWs,
        squeeze_eq_self (process x) hchain (fun c hc => (hchars c hc).2.2.2),
        pyStrip_eq_self (process x) hh hl,
        technical_pass_eq_self]

theorem process_idempotent_conditional_witness :
    url_sub (process ("Experienced in Python".data)) =
      process ("Experienced in Python".data) ∧
    phone_sub (process ("Experienced in Python".data)) =
      process ("Experienced in Python".data) ∧
    process (process ("Experienced in Python".data)) =
      process ("Experienced in Python".data) :=
  ⟨by with_unfolding_all decide, by with_unfolding_all decide,
   process_idempotent_conditional ("Experienced in Python".data)
     (by with_unfolding_all decide) (by with_unfolding_all decide)⟩

end ResumeAnalyzer
